import Mathlib

/-!
# SSDisplay: a multiplexed seven-segment display driver

A shallow embedding of `SSDisplay.h` / `SSDisplay.cpp`.

Modelling conventions

* `char` values are their numeric codes (`Nat`): `' '` is 32, `'-'` is 45, `'0'..'9'` are
  48..57, `'A'..'F'` are 65..70, `'a'..'z'` are 97..122.  Every comparison the driver makes
  is against ASCII constants, so codes above 127 behave the same whether `char` is signed
  or not.
* `long int` is the 32 bit two's complement integer of the Arduino targets; the results of
  `*`, `-` and unary minus are wrapped by `wrapLong`; `/` and `%` truncate towards zero.
* `int` counters (`i`, `_digits`) only count nodes of the digit list, whose length is
  bounded by the address space far below the largest `int`; they are natural numbers.
* The singly linked list hanging off `_first` is a `List`; `NULL` is `[]`.  The cursor
  `_next` points at a node of that list and is the position of the node (`none` is `NULL`).
  Nodes are never removed or reordered, so a position designates the same node for ever.
* Dereferencing `NULL` is a fault: the operations that can do it return `Option`.
* `pinMode` and `digitalWrite` are recorded, in program order, in the ghost field `log`.
  The level of a pin after a log is the level of the last `digitalWrite` to it.
* A sequence of calls of the public interface is a `List Call`, executed by `run`.
-/

namespace SSD

/-- Arduino logic levels (`LOW` is 0x0 and `HIGH` is 0x1 in Arduino.h). -/
inductive Level
  | LOW
  | HIGH
  deriving DecidableEq

/-- One call of the GPIO primitives: `pinMode(pin, OUTPUT)` or `digitalWrite(pin, level)`. -/
inductive PinOp
  | mode (pin : Nat)
  | write (pin : Nat) (level : Level)
  deriving DecidableEq

/-- Internal digit structure; the `next` pointer is the tail of the list holding the node. -/
structure SSDisplay_digit_s where
  content : Nat
  dot : Bool
  pin : Nat
  deriving DecidableEq

/-- The pin-modes available. -/
inductive SSDisplayMode_e
  | POSITIVE
  | NEGATIVE
  deriving DecidableEq

/-- Segment index `SEG_A = 0`. -/
def SEG_A : Nat := 0
/-- Segment index `SEG_B`. -/
def SEG_B : Nat := 1
/-- Segment index `SEG_C`. -/
def SEG_C : Nat := 2
/-- Segment index `SEG_D`. -/
def SEG_D : Nat := 3
/-- Segment index `SEG_E`. -/
def SEG_E : Nat := 4
/-- Segment index `SEG_F`. -/
def SEG_F : Nat := 5
/-- Segment index `SEG_G`. -/
def SEG_G : Nat := 6
/-- Segment index `SEG_H` (decimal point). -/
def SEG_H : Nat := 7

/-- The private and ghost state of an `SSDisplay` object. -/
structure SSDisplay where
  _seg_pins : List Nat
  _seg_cont : List Level
  _on : Level
  _off : Level
  _first : List SSDisplay_digit_s
  _next : Option Nat
  _digitMode : SSDisplayMode_e
  _digits : Nat
  log : List PinOp
  deriving DecidableEq

/-- The primitive `pinMode(pin, OUTPUT)`. -/
def pinMode (s : SSDisplay) (pin : Nat) : SSDisplay :=
  { s with log := s.log ++ [PinOp.mode pin] }

/-- The primitive `digitalWrite(pin, level)`. -/
def digitalWrite (s : SSDisplay) (pin : Nat) (level : Level) : SSDisplay :=
  { s with log := s.log ++ [PinOp.write pin level] }

/-- Constructor `SSDisplay::SSDisplay`.  The buffer `_seg_cont` is not initialised by the
source; it is never read before `updateCurrent` has overwritten all of it. -/
def SSDisplay.new (a_pin b_pin c_pin d_pin e_pin f_pin g_pin h_pin : Nat)
    (segmentMode digitMode : SSDisplayMode_e) : SSDisplay :=
  let pins := [a_pin, b_pin, c_pin, d_pin, e_pin, f_pin, g_pin, h_pin]
  { _seg_pins := pins
    _seg_cont := List.replicate 8 Level.LOW
    _on := if segmentMode = SSDisplayMode_e.POSITIVE then Level.HIGH else Level.LOW
    _off := if segmentMode = SSDisplayMode_e.POSITIVE then Level.LOW else Level.HIGH
    _first := []
    _next := none
    _digitMode := digitMode
    _digits := 0
    log := (List.range 8).map (fun i => PinOp.mode (pins.getD i 0)) }

/-- Private `_display`: writes `_seg_cont[i]` to `_seg_pins[i]` for `i = 0..7`. -/
def _display (s : SSDisplay) : SSDisplay :=
  let writes := (List.range 8).map
    (fun i => PinOp.write (s._seg_pins.getD i 0) (s._seg_cont.getD i Level.LOW))
  { s with log := s.log ++ writes }

/-- Method `updateCurrent(content, dot)`. -/
def updateCurrent (s : SSDisplay) (content : Nat) (dot : Bool) : SSDisplay :=
  let content := if 97 ≤ content ∧ content ≤ 122 then content - 97 + 65 else content
  let c := List.replicate 8 s._on
  let c := if content = 49 ∨ content = 52 ∨ content = 66 ∨ content = 68 ∨ content = 32 ∨
      content = 45 then c.set SEG_A s._off else c
  let c := if content = 53 ∨ content = 54 ∨ content = 66 ∨ content = 67 ∨ content = 69 ∨
      content = 70 ∨ content = 32 ∨ content = 45 then c.set SEG_B s._off else c
  let c := if content = 50 ∨ content = 67 ∨ content = 69 ∨ content = 70 ∨ content = 32 ∨
      content = 45 then c.set SEG_C s._off else c
  let c := if content = 49 ∨ content = 52 ∨ content = 55 ∨ content = 65 ∨ content = 70 ∨
      content = 32 ∨ content = 45 then c.set SEG_D s._off else c
  let c := if content = 49 ∨ (51 ≤ content ∧ content ≤ 53) ∨ content = 55 ∨ content = 57 ∨
      content = 32 ∨ content = 45 then c.set SEG_E s._off else c
  let c := if (49 ≤ content ∧ content ≤ 51) ∨ content = 55 ∨ content = 68 ∨ content = 32 ∨
      content = 45 then c.set SEG_F s._off else c
  let c := if content = 48 ∨ content = 49 ∨ content = 55 ∨ content = 67 ∨ content = 32
      then c.set SEG_G s._off else c
  let c := if ¬ dot then c.set SEG_H s._off else c
  _display { s with _seg_cont := c }

/-- Method `blankCurrent`. -/
def blankCurrent (s : SSDisplay) : SSDisplay :=
  updateCurrent s 32 false

/-- The walk of `addDigit` to the last node, where the new node is linked. -/
def linkLast : List SSDisplay_digit_s → SSDisplay_digit_s → List SSDisplay_digit_s
  | [], node => [node]
  | d :: rest, node => d :: linkLast rest node

/-- Method `addDigit(pin)`. -/
def addDigit (s : SSDisplay) (pin : Nat) : SSDisplay :=
  let s := { s with _first := linkLast s._first { content := 32, dot := false, pin := pin } }
  let s := pinMode s pin
  let s := if s._digitMode = SSDisplayMode_e.POSITIVE then digitalWrite s pin Level.LOW
    else digitalWrite s pin Level.HIGH
  { s with _digits := s._digits + 1 }

/-- The node after position `i` of the list (`node->next`), `none` after the last node. -/
def nextOf (l : List SSDisplay_digit_s) (i : Nat) : Option Nat :=
  if i + 1 < l.length then some (i + 1) else none

/-- Method `refreshNext`. -/
def refreshNext (s : SSDisplay) : Option SSDisplay :=
  match s._first with
  | [] => some s
  | _ :: _ => do
    let s := if s._next = none then { s with _next := some 0 } else s
    let s := blankCurrent s
    let cur ← s._next
    let d ← s._first[cur]?
    let s := if s._digitMode = SSDisplayMode_e.POSITIVE then digitalWrite s d.pin Level.LOW
      else digitalWrite s d.pin Level.HIGH
    let s := { s with _next := nextOf s._first cur }
    let s := if s._next = none then { s with _next := some 0 } else s
    let cur ← s._next
    let d ← s._first[cur]?
    let s := if s._digitMode = SSDisplayMode_e.POSITIVE then digitalWrite s d.pin Level.HIGH
      else digitalWrite s d.pin Level.LOW
    some (updateCurrent s d.content d.dot)

/-- Width of `long int` and `unsigned long int`. -/
def LONG_BITS : Nat := 32

/-- Reduction of an integer to the signed `long int` range. -/
def wrapLong (x : Int) : Int :=
  (x + 2 ^ (LONG_BITS - 1)) % 2 ^ LONG_BITS - 2 ^ (LONG_BITS - 1)

/-- Conversion of an integer to `char`, as a code 0..255. -/
def toChar (x : Int) : Nat :=
  (x % 256).toNat

/-- Loop `for(i = 0; i < _digits; i++) tempNum *= 10;` followed by `tempNum--`. -/
def decThreshold (digits : Nat) : Int :=
  wrapLong (Nat.iterate (fun t => wrapLong (t * 10)) digits 1 - 1)

/-- Body of the positive overflow loop of `printDecInt`, from node counter `i`. -/
def decPosOverflow : Nat → List SSDisplay_digit_s → List SSDisplay_digit_s
  | _, [] => []
  | i, d :: rest =>
    { d with content := 32, dot := if i ≤ 3 then true else false } :: decPosOverflow (i + 1) rest

/-- Body of the digit loop of `printDecInt` for a non-negative number. -/
def decPosDigits : Int → Nat → List SSDisplay_digit_s → List SSDisplay_digit_s
  | _, _, [] => []
  | tempNum, i, d :: rest =>
    { d with
      content := if tempNum > 0 ∨ i = 1 then toChar (48 + Int.tmod tempNum 10) else 32
      dot := false } :: decPosDigits (Int.tdiv tempNum 10) (i + 1) rest

/-- Body of the negative overflow loop of `printDecInt`. -/
def decNegOverflow (digits : Nat) : Nat → List SSDisplay_digit_s → List SSDisplay_digit_s
  | _, [] => []
  | i, d :: rest =>
    { d with
      dot := if i ≤ 3 then true else false
      content := if i = digits then 45 else 32 } :: decNegOverflow digits (i + 1) rest

/-- Body of the digit loop of `printDecInt` for a negative number. -/
def decNegDigits (digits : Nat) : Int → Nat → List SSDisplay_digit_s → List SSDisplay_digit_s
  | _, _, [] => []
  | tempNum, i, d :: rest =>
    { d with
      content := if i = digits then 45
        else if tempNum > 0 then toChar (48 + Int.tmod tempNum 10) else 32
      dot := false } :: decNegDigits digits (Int.tdiv tempNum 10) (i + 1) rest

/-- Assignment `_first->dot = true`. -/
def setFirstDot : List SSDisplay_digit_s → List SSDisplay_digit_s
  | [] => []
  | d :: rest => { d with dot := true } :: rest

/-- Method `printDecInt(number)`; every `do ... while` body dereferences `selected` before
the test, which faults on the empty list. -/
def printDecInt (s : SSDisplay) (number : Int) : Option SSDisplay :=
  let tempNum := decThreshold s._digits
  match s._first with
  | [] => none
  | _ :: _ =>
    if number ≥ 0 then
      if number > tempNum then
        some { s with _first := decPosOverflow 1 s._first }
      else
        some { s with _first := setFirstDot (decPosDigits number 1 s._first) }
    else
      let tempNum := Int.tdiv tempNum 10
      if number < wrapLong (-tempNum) then
        some { s with _first := decNegOverflow s._digits 1 s._first }
      else
        some { s with
          _first := setFirstDot (decNegDigits s._digits (wrapLong (-number)) 1 s._first) }

/-- Body of the loop of `printHexInt`. -/
def hexDigits : Nat → Nat → List SSDisplay_digit_s → List SSDisplay_digit_s
  | _, _, [] => []
  | tempNum, i, d :: rest =>
    let tempDigit := tempNum % 16
    { d with
      content := if tempNum > 0 ∨ i ≤ 1 then
          (if tempDigit < 10 then 48 + tempDigit else 65 + tempDigit - 10)
        else 32
      dot := false } :: hexDigits (tempNum / 16) (i + 1) rest

/-- Method `printHexInt(number)`. -/
def printHexInt (s : SSDisplay) (number : Nat) : Option SSDisplay :=
  match s._first with
  | [] => none
  | _ :: _ => some { s with _first := hexDigits number 1 s._first }

/-- Display obtained from `s` by one `addDigit` call per pin, in order. -/
def addDigits (s : SSDisplay) (pins : List Nat) : SSDisplay :=
  pins.foldl addDigit s

/-- Run `refreshNext` `k` times. -/
def refreshNextTimes : Nat → SSDisplay → Option SSDisplay
  | 0, s => some s
  | k + 1, s => (refreshNext s).bind (refreshNextTimes k)

/-- Contents of the chain, first appended digit first. -/
def contents (s : SSDisplay) : List Nat :=
  s._first.map (fun d => d.content)

/-- Dot flags of the chain, first appended digit first. -/
def dots (s : SSDisplay) : List Bool :=
  s._first.map (fun d => d.dot)

/-- A four digit display on pins 10..13 used in the examples. -/
def demo4 : SSDisplay :=
  addDigits (SSDisplay.new 2 3 4 5 6 7 8 9 SSDisplayMode_e.NEGATIVE SSDisplayMode_e.NEGATIVE)
    [10, 11, 12, 13]

/-- A ten digit display on pins 10..19 used in the examples. -/
def demo10 : SSDisplay :=
  addDigits (SSDisplay.new 2 3 4 5 6 7 8 9 SSDisplayMode_e.NEGATIVE SSDisplayMode_e.NEGATIVE)
    [10, 11, 12, 13, 14, 15, 16, 17, 18, 19]

/-- The negative overflow pattern on a chain: `'-'` at the last entry, blank elsewhere, the
dot flag set exactly at the entries `k < 3`. -/
def NegOverflowPattern (l : List SSDisplay_digit_s) : Prop :=
  ∀ k d, l[k]? = some d →
    d.content = (if k + 1 = l.length then 45 else 32) ∧ (d.dot = true ↔ k < 3)

/-- Digit extraction of the magnitude `m` below a minus sign: `'-'` at the last entry, at
entry `k` below it the character of `(m / 10^k) mod 10` when `m / 10^k > 0` and the blank
otherwise, the dot flag set at entry 0 only. -/
def NegDigitsPattern (m : Int) (l : List SSDisplay_digit_s) : Prop :=
  ∀ k d, l[k]? = some d →
    d.content = (if k + 1 = l.length then 45
      else if 0 < m / 10 ^ k then 48 + ((m / 10 ^ k) % 10).toNat else 32) ∧
    (d.dot = true ↔ k = 0)

/-- A two digit display on pins 10 and 11 used in the examples. -/
def demo2 : SSDisplay :=
  addDigits (SSDisplay.new 2 3 4 5 6 7 8 9 SSDisplayMode_e.NEGATIVE SSDisplayMode_e.NEGATIVE)
    [10, 11]

/-- The character of a base-16 digit value: `'0'..'9'` for 0..9 and `'A'..'F'` for 10..15. -/
def hexChar (v : Nat) : Nat :=
  if v < 10 then 48 + v else 65 + (v - 10)

/-- Reading a chain character back as a base-16 digit value; the blank (and any character
that is not a hexadecimal digit) reads as 0. -/
def readHexChar (c : Nat) : Nat :=
  if 48 ≤ c ∧ c ≤ 57 then c - 48 else if 65 ≤ c ∧ c ≤ 70 then c - 55 else 0

/-- The polarity fields of `s` are those the constructor sets for segment mode `m`:
on is `HIGH` and off is `LOW` for `POSITIVE`, the reverse for `NEGATIVE`. -/
def SegmentPolarity (s : SSDisplay) (m : SSDisplayMode_e) : Prop :=
  s._on = (if m = SSDisplayMode_e.POSITIVE then Level.HIGH else Level.LOW) ∧
  s._off = (if m = SSDisplayMode_e.POSITIVE then Level.LOW else Level.HIGH)

/-- Level last written to `pin` by the operations of a log, `none` when the log holds no
write to it. -/
def pinLevel (log : List PinOp) (pin : Nat) : Option Level :=
  log.foldl (fun cur op =>
    match op with
    | PinOp.write p l => if p = pin then some l else cur
    | PinOp.mode _ => cur) none

/-- Level that enables a digit's common line: `HIGH` for digit mode `POSITIVE`, `LOW` for
`NEGATIVE` (the level `refreshNext` writes to the newly selected digit). -/
def activeLevel (m : SSDisplayMode_e) : Level :=
  if m = SSDisplayMode_e.POSITIVE then Level.HIGH else Level.LOW

/-- Level that disables a digit's common line (the level `addDigit` writes). -/
def inactiveLevel (m : SSDisplayMode_e) : Level :=
  if m = SSDisplayMode_e.POSITIVE then Level.LOW else Level.HIGH

/-- Number of digits of a chain whose common line is at the active level after a log. -/
def enabledCount (m : SSDisplayMode_e) (chain : List SSDisplay_digit_s) (log : List PinOp) :
    Nat :=
  chain.countP (fun d => decide (pinLevel log d.pin = some (activeLevel m)))

/-- Position selected by `refreshNext` after position `c` on a chain of `n` digits. -/
def nextIdx (n c : Nat) : Nat :=
  if c + 1 < n then c + 1 else 0

/-- Ghost invariant of the multiplexer between two `refreshNext` calls: the chain drives the
common pins `pins`, the cursor designates position `c` (position 0 while it is still `NULL`),
and every common line except possibly the one at `c` is at the inactive level. -/
structure CursorInv (segs pins : List Nat) (dm : SSDisplayMode_e) (s : SSDisplay) (c : Nat) :
    Prop where
  chain : s._first.map (fun d => d.pin) = pins
  segPins : s._seg_pins = segs
  mode : s._digitMode = dm
  cursor : s._next = some c ∨ (s._next = none ∧ c = 0)
  bound : c < pins.length
  quiet : ∀ i, i < pins.length → i ≠ c →
    pinLevel s.log (pins.getD i 0) = some (inactiveLevel dm)

/-- Body of the `do ... while` loop of `refreshAll` from the node `selected` on; the list is
the chain from `selected` to its end. -/
def refreshAllLoop : SSDisplay → List SSDisplay_digit_s → SSDisplay
  | s, [] => s
  | s, selected :: rest =>
    let s := if s._digitMode = SSDisplayMode_e.POSITIVE
      then digitalWrite s selected.pin Level.HIGH
      else digitalWrite s selected.pin Level.LOW
    let s := updateCurrent s selected.content selected.dot
    let s := blankCurrent s
    let s := if s._digitMode = SSDisplayMode_e.POSITIVE
      then digitalWrite s selected.pin Level.LOW
      else digitalWrite s selected.pin Level.HIGH
    refreshAllLoop s rest

/-- Method `refreshAll`. -/
def refreshAll (s : SSDisplay) : SSDisplay :=
  match s._first with
  | [] => s
  | selected :: rest => refreshAllLoop s (selected :: rest)

/-- The eight segment levels that `updateCurrent(content, dot)` computes on display `s`. -/
def encoding (s : SSDisplay) (content : Nat) (dot : Bool) : List Level :=
  (updateCurrent s content dot)._seg_cont

/-- Eight pin writes, one per segment line in the order A..H, of the given levels. -/
def segWrites (s : SSDisplay) (levels : List Level) : List PinOp :=
  (List.range 8).map (fun i => PinOp.write (s._seg_pins.getD i 0) (levels.getD i Level.LOW))

/-- The blank pattern: all eight segment lines at the off level. -/
def blankPattern (s : SSDisplay) : List Level :=
  List.replicate 8 s._off

/-- The pin writes of `refreshAll` for one digit: enable its common line, render its stored
content and dot flag, blank, disable its common line. -/
def sweepWrites (s : SSDisplay) (d : SSDisplay_digit_s) : List PinOp :=
  [PinOp.write d.pin (activeLevel s._digitMode)] ++
    segWrites s (encoding s d.content d.dot) ++
    segWrites s (blankPattern s) ++
    [PinOp.write d.pin (inactiveLevel s._digitMode)]

/-- One call of the public interface after construction. -/
inductive Call
  | addDigit (pin : Nat)
  | refreshAll
  | refreshNext
  | printDecInt (number : Int)
  | printHexInt (number : Nat)

/-- Effect of one call; `none` when the call faults. -/
def call (s : SSDisplay) : Call → Option SSDisplay
  | Call.addDigit pin => some (addDigit s pin)
  | Call.refreshAll => some (refreshAll s)
  | Call.refreshNext => refreshNext s
  | Call.printDecInt number => printDecInt s number
  | Call.printHexInt number => printHexInt s number

/-- Effect of a sequence of calls, first call first. -/
def run : SSDisplay → List Call → Option SSDisplay
  | s, [] => some s
  | s, c :: rest => (call s c).bind (fun s' => run s' rest)

/-- Common pins passed to the `addDigit` calls of a sequence, in order. -/
def addedPins : List Call → List Nat
  | [] => []
  | Call.addDigit pin :: rest => pin :: addedPins rest
  | Call.refreshAll :: rest => addedPins rest
  | Call.refreshNext :: rest => addedPins rest
  | Call.printDecInt _ :: rest => addedPins rest
  | Call.printHexInt _ :: rest => addedPins rest

/-- Usage discipline of a call sequence on a chain of `n` digits: the print calls find a
non-empty chain, and `refreshAll` is not called once `refreshNext` has been called
(`stepped` records that). -/
def disciplined : Nat → Bool → List Call → Bool
  | _, _, [] => true
  | n, stepped, Call.addDigit _ :: rest => disciplined (n + 1) stepped rest
  | n, stepped, Call.refreshAll :: rest => !stepped && disciplined n stepped rest
  | n, _, Call.refreshNext :: rest => disciplined n true rest
  | n, stepped, Call.printDecInt _ :: rest => decide (0 < n) && disciplined n stepped rest
  | n, stepped, Call.printHexInt _ :: rest => decide (0 < n) && disciplined n stepped rest

/-- Ghost invariant of a display along a disciplined call sequence: the common pins are
pairwise distinct and apart from the segment pins, the log only writes to segment pins and
common pins, at most one common line was enabled after every logged operation, and either
the cursor is `NULL` with every common line inactive, or `refreshNext` has been called
(`stepped`) and the cursor invariant holds. -/
structure RunInv (segs : List Nat) (dm : SSDisplayMode_e) (stepped : Bool) (s : SSDisplay) :
    Prop where
  segPins : s._seg_pins = segs
  mode : s._digitMode = dm
  nodup : (s._first.map (fun d => d.pin)).Nodup
  apart : ∀ i, i < 8 → segs.getD i 0 ∉ s._first.map (fun d => d.pin)
  known : ∀ p l, PinOp.write p l ∈ s.log →
    p ∈ s._first.map (fun d => d.pin) ∨ ∃ i, i < 8 ∧ p = segs.getD i 0
  safe : ∀ t, t ≤ s.log.length → enabledCount dm s._first (s.log.take t) ≤ 1
  quiet : (s._next = none ∧
      ∀ p ∈ s._first.map (fun d => d.pin), pinLevel s.log p = some (inactiveLevel dm)) ∨
    (stepped = true ∧ ∃ c, CursorInv segs (s._first.map (fun d => d.pin)) dm s c)

/-- The character codes outside of which the encoder is undocumented: `'0'..'9'`,
`'A'..'F'`, `'a'..'f'`, the blank and `'-'`. -/
def Documented (c : Nat) : Prop :=
  (48 ≤ c ∧ c ≤ 57) ∨ (65 ≤ c ∧ c ≤ 70) ∨ (97 ≤ c ∧ c ≤ 102) ∨ c = 32 ∨ c = 45

/-- The symbols of the font table: `'0'..'9'`, `'A'..'F'`, the blank and `'-'`. -/
def fontSymbols : List Nat :=
  [48, 49, 50, 51, 52, 53, 54, 55, 56, 57, 65, 66, 67, 68, 69, 70, 32, 45]

/-- The standard seven-segment hexadecimal font, as the list of lit flags of segments
A, B, C, D, E, F, G: 0: ABCDEF, 1: BC, 2: ABDEG, 3: ABCDG, 4: BCFG, 5: ACDFG, 6: ACDEFG,
7: ABC, 8: ABCDEFG, 9: ABCDFG, A: ABCEFG, B: CDEFG, C: ADEF, D: BCDEG, E: ADEFG, F: AEFG,
blank: none, `'-'`: G. -/
def standardFont (c : Nat) : List Bool :=
  if c = 48 then [true, true, true, true, true, true, false]
  else if c = 49 then [false, true, true, false, false, false, false]
  else if c = 50 then [true, true, false, true, true, false, true]
  else if c = 51 then [true, true, true, true, false, false, true]
  else if c = 52 then [false, true, true, false, false, true, true]
  else if c = 53 then [true, false, true, true, false, true, true]
  else if c = 54 then [true, false, true, true, true, true, true]
  else if c = 55 then [true, true, true, false, false, false, false]
  else if c = 56 then [true, true, true, true, true, true, true]
  else if c = 57 then [true, true, true, true, false, true, true]
  else if c = 65 then [true, true, true, false, true, true, true]
  else if c = 66 then [false, false, true, true, true, true, true]
  else if c = 67 then [true, false, false, true, true, true, false]
  else if c = 68 then [false, true, true, true, true, false, true]
  else if c = 69 then [true, false, false, true, true, true, true]
  else if c = 70 then [true, false, false, false, true, true, true]
  else if c = 45 then [false, false, false, false, false, false, true]
  else [false, false, false, false, false, false, false]

/-! ## Arithmetic of `long int` -/

/-- Values in the `long int` range are not changed by the wrap. -/
theorem wrapLong_of_range (x : Int) (h1 : -(2 ^ 31) ≤ x) (h2 : x < 2 ^ 31) : wrapLong x = x := by
  unfold wrapLong LONG_BITS
  norm_num
  rw [Int.emod_eq_of_lt (by linarith) (by linarith)]
  ring

/-- A power of ten is representable in `long int` only for at most nine digits. -/
theorem digits_le_nine (n : Nat) (h : (10 : Int) ^ n ≤ 2 ^ (LONG_BITS - 1) - 1) : n ≤ 9 := by
  by_contra hc
  have h10 : (10 : Int) ^ 10 ≤ 10 ^ n := pow_le_pow_right₀ (by norm_num) (by omega)
  unfold LONG_BITS at h
  norm_num at h h10
  linarith

/-- Up to nine digits the threshold loop computes `10^n - 1` without wrapping. -/
theorem decThreshold_small (n : Nat) (h : n ≤ 9) : decThreshold n = 10 ^ n - 1 := by
  interval_cases n <;> decide

/-- The character of a decimal digit. -/
theorem toChar_digit (t : Int) (h : 0 ≤ t) : toChar (48 + Int.tmod t 10) = 48 + (t % 10).toNat := by
  unfold toChar
  rw [Int.tmod_eq_emod h (by norm_num)]
  have h1 : 0 ≤ t % 10 := Int.emod_nonneg t (by norm_num)
  have h2 : t % 10 < 10 := Int.emod_lt_of_pos t (by norm_num)
  omega

/-- Dividing by ten and then by `10^k` is dividing by `10^(k+1)`. -/
theorem int_div_ten_pow (t : Int) (ht : 0 ≤ t) (k : Nat) :
    t / 10 / 10 ^ k = t / 10 ^ (k + 1) := by
  obtain ⟨m, rfl⟩ := Int.eq_ofNat_of_zero_le ht
  have h : m / 10 / 10 ^ k = m / 10 ^ (k + 1) := by
    rw [Nat.div_div_eq_div_mul, pow_succ']
  exact_mod_cast h

/-! ## The loops of `printDecInt` -/

theorem decPosOverflow_getElem? (l : List SSDisplay_digit_s) (i k : Nat) :
    (decPosOverflow i l)[k]? =
      (l[k]?).map (fun d => { d with content := 32, dot := decide (i + k ≤ 3) }) := by
  induction l generalizing i k with
  | nil => simp [decPosOverflow]
  | cons d rest ih =>
    cases k with
    | zero => simp [decPosOverflow]
    | succ k =>
      simp only [decPosOverflow, List.getElem?_cons_succ, ih]
      have : i + 1 + k = i + (k + 1) := by omega
      rw [this]

theorem decPosDigits_getElem? (l : List SSDisplay_digit_s) (t : Int) (ht : 0 ≤ t) (i k : Nat) :
    (decPosDigits t i l)[k]? =
      (l[k]?).map (fun d => { d with
        content := if 0 < t / 10 ^ k ∨ i + k = 1 then 48 + ((t / 10 ^ k) % 10).toNat else 32
        dot := false }) := by
  induction l generalizing t i k with
  | nil => simp [decPosDigits]
  | cons d rest ih =>
    cases k with
    | zero => simp [decPosDigits, toChar_digit t ht]
    | succ k =>
      have hdiv : Int.tdiv t 10 = t / 10 := Int.tdiv_eq_ediv ht (by norm_num)
      have h10 : (0 : Int) ≤ t / 10 := Int.ediv_nonneg ht (by norm_num)
      have hp : t / 10 / 10 ^ k = t / 10 ^ (k + 1) := int_div_ten_pow t ht k
      have hi : i + 1 + k = i + (k + 1) := by omega
      simp only [decPosDigits, List.getElem?_cons_succ, hdiv, ih _ h10, hp, hi]

theorem setFirstDot_getElem? (l : List SSDisplay_digit_s) (k : Nat) :
    (setFirstDot l)[k]? = (l[k]?).map (fun d => if k = 0 then { d with dot := true } else d) := by
  cases l with
  | nil => simp [setFirstDot]
  | cons d rest =>
    cases k with
    | zero => simp [setFirstDot]
    | succ k => simp [setFirstDot]

/-! ## The four branches of `printDecInt` -/

theorem printDecInt_branch_digits (s : SSDisplay) (number : Int) (hne : s._first ≠ [])
    (h0 : 0 ≤ number) (hle : number ≤ decThreshold s._digits) :
    printDecInt s number =
      some { s with _first := setFirstDot (decPosDigits number 1 s._first) } := by
  unfold printDecInt
  cases hf : s._first with
  | nil => exact absurd hf hne
  | cons d0 rest =>
    simp only
    rw [if_pos (by exact h0), if_neg (by linarith)]

theorem printDecInt_branch_overflow (s : SSDisplay) (number : Int) (hne : s._first ≠ [])
    (h0 : 0 ≤ number) (hgt : decThreshold s._digits < number) :
    printDecInt s number = some { s with _first := decPosOverflow 1 s._first } := by
  unfold printDecInt
  cases hf : s._first with
  | nil => exact absurd hf hne
  | cons d0 rest =>
    simp only
    rw [if_pos (by exact h0), if_pos (by exact hgt)]

theorem printDecInt_branch_neg_overflow (s : SSDisplay) (number : Int) (hne : s._first ≠ [])
    (h0 : number < 0) (hlt : number < wrapLong (-(Int.tdiv (decThreshold s._digits) 10))) :
    printDecInt s number = some { s with _first := decNegOverflow s._digits 1 s._first } := by
  unfold printDecInt
  cases hf : s._first with
  | nil => exact absurd hf hne
  | cons d0 rest =>
    simp only
    rw [if_neg (by show ¬ number ≥ 0; linarith), if_pos (by exact hlt)]

theorem printDecInt_branch_neg_digits (s : SSDisplay) (number : Int) (hne : s._first ≠ [])
    (h0 : number < 0) (hge : wrapLong (-(Int.tdiv (decThreshold s._digits) 10)) ≤ number) :
    printDecInt s number = some { s with
      _first := setFirstDot (decNegDigits s._digits (wrapLong (-number)) 1 s._first) } := by
  unfold printDecInt
  cases hf : s._first with
  | nil => exact absurd hf hne
  | cons d0 rest =>
    simp only
    rw [if_neg (by show ¬ number ≥ 0; linarith), if_neg (by linarith)]

theorem decPosDigits_length (l : List SSDisplay_digit_s) (t : Int) (i : Nat) :
    (decPosDigits t i l).length = l.length := by
  induction l generalizing t i with
  | nil => simp [decPosDigits]
  | cons d r ih => simp [decPosDigits, ih]

theorem decPosOverflow_length (l : List SSDisplay_digit_s) (i : Nat) :
    (decPosOverflow i l).length = l.length := by
  induction l generalizing i with
  | nil => simp [decPosOverflow]
  | cons d r ih => simp [decPosOverflow, ih]

theorem setFirstDot_length (l : List SSDisplay_digit_s) : (setFirstDot l).length = l.length := by
  cases l <;> simp [setFirstDot]

/-! ## Decimal rendering of non-negative numbers -/

/-- C1: on a chain of `n >= 1` digits with `10^n` representable in `long int`, a number with
`0 <= number <= 10^n - 1` is rendered by digit extraction: `printDecInt` returns, entry `k`
holds the character of the decimal digit `(number / 10^k) mod 10` when `number / 10^k > 0` or
`k = 0` and the blank otherwise, and the dot flag is set at entry 0 only, whatever the
entries held before. -/
theorem printDecInt_nonneg_in_range (s : SSDisplay) (number : Int)
    (hcount : s._digits = s._first.length) (hn : 1 ≤ s._first.length)
    (hrep : (10 : Int) ^ s._first.length ≤ 2 ^ (LONG_BITS - 1) - 1)
    (h0 : 0 ≤ number) (hmax : number ≤ 10 ^ s._first.length - 1) :
    ∃ s', printDecInt s number = some s' ∧ s'._first.length = s._first.length ∧
      ∀ k, k < s._first.length → ∃ d, s'._first[k]? = some d ∧
        d.content =
          (if 0 < number / 10 ^ k ∨ k = 0 then 48 + ((number / 10 ^ k) % 10).toNat else 32) ∧
        d.dot = decide (k = 0) := by
  have h9 := digits_le_nine _ hrep
  have hne : s._first ≠ [] := by
    intro h
    rw [h] at hn
    simp at hn
  refine ⟨_, printDecInt_branch_digits s number hne h0 ?_, ?_, ?_⟩
  · rw [hcount, decThreshold_small _ h9]
    exact hmax
  · simp [decPosDigits_length, setFirstDot_length]
  · intro k hk
    simp only [setFirstDot_getElem?, decPosDigits_getElem? _ _ h0]
    obtain ⟨d, hd⟩ : ∃ d, s._first[k]? = some d := ⟨_, List.getElem?_eq_getElem hk⟩
    rw [hd]
    by_cases hk0 : k = 0
    · simp [hk0]
    · have : ¬ (1 + k = 1) := by omega
      simp [hk0, this]

/-- Instance of C1 on the four digit display, with the renderings of 0 and 9999. -/
theorem printDecInt_nonneg_in_range_witness :
    (∃ s', printDecInt demo4 9999 = some s' ∧ s'._first.length = demo4._first.length ∧
      ∀ k, k < demo4._first.length → ∃ d, s'._first[k]? = some d ∧
        d.content =
          (if 0 < (9999 : Int) / 10 ^ k ∨ k = 0 then 48 + (((9999 : Int) / 10 ^ k) % 10).toNat
            else 32) ∧
        d.dot = decide (k = 0)) ∧
    (printDecInt demo4 0).map contents = some [48, 32, 32, 32] ∧
    (printDecInt demo4 0).map dots = some [true, false, false, false] ∧
    (printDecInt demo4 9999).map contents = some [57, 57, 57, 57] ∧
    (printDecInt demo4 9999).map dots = some [true, false, false, false] :=
  ⟨printDecInt_nonneg_in_range demo4 9999 (by decide) (by decide) (by decide) (by decide)
    (by decide), by decide, by decide, by decide, by decide⟩

/-- C2: on a chain of `n >= 1` digits with `10^n` representable in `long int`, a number above
`10^n - 1` is rendered as the overflow pattern: `printDecInt` returns, every entry holds the
blank, and the dot flag of entry `k` is set exactly when `k < 3`, whatever the entries held
before. -/
theorem printDecInt_pos_overflow (s : SSDisplay) (number : Int)
    (hcount : s._digits = s._first.length) (hn : 1 ≤ s._first.length)
    (hrep : (10 : Int) ^ s._first.length ≤ 2 ^ (LONG_BITS - 1) - 1)
    (hover : number > 10 ^ s._first.length - 1) :
    ∃ s', printDecInt s number = some s' ∧ s'._first.length = s._first.length ∧
      ∀ k, k < s._first.length → ∃ d, s'._first[k]? = some d ∧
        d.content = 32 ∧ (d.dot = true ↔ k < 3) := by
  have h9 := digits_le_nine _ hrep
  have hpos : (0 : Int) < 10 ^ s._first.length := by positivity
  have hne : s._first ≠ [] := by
    intro h
    rw [h] at hn
    simp at hn
  refine ⟨_, printDecInt_branch_overflow s number hne (by linarith) ?_, ?_, ?_⟩
  · rw [hcount, decThreshold_small _ h9]
    exact hover
  · simp [decPosOverflow_length]
  · intro k hk
    simp only [decPosOverflow_getElem?]
    obtain ⟨d, hd⟩ : ∃ d, s._first[k]? = some d := ⟨_, List.getElem?_eq_getElem hk⟩
    rw [hd]
    refine ⟨_, rfl, rfl, ?_⟩
    simp
    omega

/-- Instance of C2: 10000 on the four digit display. -/
theorem printDecInt_pos_overflow_witness :
    (∃ s', printDecInt demo4 10000 = some s' ∧ s'._first.length = demo4._first.length ∧
      ∀ k, k < demo4._first.length → ∃ d, s'._first[k]? = some d ∧
        d.content = 32 ∧ (d.dot = true ↔ k < 3)) ∧
    (printDecInt demo4 10000).map contents = some [32, 32, 32, 32] ∧
    (printDecInt demo4 10000).map dots = some [true, true, true, false] :=
  ⟨printDecInt_pos_overflow demo4 10000 (by decide) (by decide) (by decide) (by decide),
    by decide, by decide⟩

/-! ## Decimal rendering of negative numbers -/

/-- Up to nine digits the negative threshold is `-(10^(n-1) - 1)`. -/
theorem negThreshold_small (n : Nat) (h1 : 1 ≤ n) (h9 : n ≤ 9) :
    wrapLong (-(Int.tdiv (decThreshold n) 10)) = -(10 ^ (n - 1) - 1) := by
  interval_cases n <;> decide

theorem decNegOverflow_length (n : Nat) (l : List SSDisplay_digit_s) (i : Nat) :
    (decNegOverflow n i l).length = l.length := by
  induction l generalizing i with
  | nil => simp [decNegOverflow]
  | cons d r ih => simp [decNegOverflow, ih]

theorem decNegDigits_length (n : Nat) (l : List SSDisplay_digit_s) (t : Int) (i : Nat) :
    (decNegDigits n t i l).length = l.length := by
  induction l generalizing t i with
  | nil => simp [decNegDigits]
  | cons d r ih => simp [decNegDigits, ih]

theorem decNegOverflow_getElem? (n : Nat) (l : List SSDisplay_digit_s) (i k : Nat) :
    (decNegOverflow n i l)[k]? =
      (l[k]?).map (fun d => { d with
        content := if i + k = n then 45 else 32
        dot := decide (i + k ≤ 3) }) := by
  induction l generalizing i k with
  | nil => simp [decNegOverflow]
  | cons d rest ih =>
    cases k with
    | zero => simp [decNegOverflow]
    | succ k =>
      have hi : i + 1 + k = i + (k + 1) := by omega
      simp only [decNegOverflow, List.getElem?_cons_succ, ih, hi]

theorem decNegDigits_getElem? (n : Nat) (l : List SSDisplay_digit_s) (t : Int) (ht : 0 ≤ t)
    (i k : Nat) :
    (decNegDigits n t i l)[k]? =
      (l[k]?).map (fun d => { d with
        content := if i + k = n then 45
          else if 0 < t / 10 ^ k then 48 + ((t / 10 ^ k) % 10).toNat else 32
        dot := false }) := by
  induction l generalizing t i k with
  | nil => simp [decNegDigits]
  | cons d rest ih =>
    cases k with
    | zero => simp [decNegDigits, toChar_digit t ht]
    | succ k =>
      have hdiv : Int.tdiv t 10 = t / 10 := Int.tdiv_eq_ediv ht (by norm_num)
      have h10 : (0 : Int) ≤ t / 10 := Int.ediv_nonneg ht (by norm_num)
      have hp : t / 10 / 10 ^ k = t / 10 ^ (k + 1) := int_div_ten_pow t ht k
      have hi : i + 1 + k = i + (k + 1) := by omega
      simp only [decNegDigits, List.getElem?_cons_succ, hdiv, ih _ h10, hp, hi]

/-- A power of ten below `10^9` is in the `long int` range. -/
theorem pow_ten_small (n : Nat) (h9 : n ≤ 9) : (10 : Int) ^ n < 2 ^ 31 := by
  interval_cases n <;> norm_num

/-- The negative overflow branch yields the negative overflow pattern. -/
theorem decNegOverflow_pattern (l : List SSDisplay_digit_s) :
    NegOverflowPattern (decNegOverflow l.length 1 l) := by
  intro k d hd
  rw [decNegOverflow_getElem?] at hd
  rw [decNegOverflow_length]
  cases hl : l[k]? with
  | none => simp [hl] at hd
  | some d0 =>
    simp only [hl, Option.map_some', Option.some.injEq] at hd
    subst hd
    have h1 : (1 + k = l.length) = (k + 1 = l.length) := by rw [Nat.add_comm]
    simp only [h1, decide_eq_true_eq, true_and]
    omega

/-- The negative digit branch yields the digit pattern of the magnitude. -/
theorem decNegDigits_pattern (l : List SSDisplay_digit_s) (m : Int) (hm : 0 ≤ m) :
    NegDigitsPattern m (setFirstDot (decNegDigits l.length m 1 l)) := by
  intro k d hd
  rw [setFirstDot_getElem?, decNegDigits_getElem? _ _ _ hm] at hd
  rw [setFirstDot_length, decNegDigits_length]
  cases hl : l[k]? with
  | none => simp [hl] at hd
  | some d0 =>
    simp only [hl, Option.map_some', Option.some.injEq] at hd
    subst hd
    have h1 : (1 + k = l.length) = (k + 1 = l.length) := by rw [Nat.add_comm]
    by_cases hk : k = 0
    · simp [hk]
    · simp [hk, h1]

/-- The negative digit branch is taken when the magnitude is at most `10^(n-1) - 1`. -/
theorem printDecInt_neg_digits_eq (s : SSDisplay) (number : Int)
    (hcount : s._digits = s._first.length) (hn : 1 ≤ s._first.length)
    (h9 : s._first.length ≤ 9) (hneg : number < 0)
    (hmag : -number ≤ 10 ^ (s._first.length - 1) - 1) :
    printDecInt s number = some { s with
      _first := setFirstDot (decNegDigits s._first.length (-number) 1 s._first) } := by
  have hne : s._first ≠ [] := by
    intro h
    rw [h] at hn
    simp at hn
  have hp := pow_ten_small (s._first.length - 1) (by omega)
  have hw : wrapLong (-number) = -number :=
    wrapLong_of_range _ (by linarith) (by linarith)
  rw [printDecInt_branch_neg_digits s number hne hneg ?_, hw, hcount]
  rw [hcount, negThreshold_small _ hn h9]
  linarith

/-- The negative overflow branch is taken when the magnitude exceeds `10^(n-1) - 1`. -/
theorem printDecInt_neg_overflow_eq (s : SSDisplay) (number : Int)
    (hcount : s._digits = s._first.length) (hn : 1 ≤ s._first.length)
    (h9 : s._first.length ≤ 9) (hneg : number < 0)
    (hmag : 10 ^ (s._first.length - 1) - 1 < -number) :
    printDecInt s number = some { s with
      _first := decNegOverflow s._first.length 1 s._first } := by
  have hne : s._first ≠ [] := by
    intro h
    rw [h] at hn
    simp at hn
  rw [printDecInt_branch_neg_overflow s number hne hneg ?_, hcount]
  rw [hcount, negThreshold_small _ hn h9]
  linarith

/-- Digit extraction below the minus sign, for chains of two to nine digits: a negative
number with `|number| <= 10^(n-1) - 1` is rendered with `'-'` at the last entry, the digits of
the magnitude (blank above its leading digit) below it and the dot at entry 0 only. -/
theorem printDecInt_neg_in_range (s : SSDisplay) (number : Int)
    (hcount : s._digits = s._first.length) (hn : 2 ≤ s._first.length)
    (hrep : (10 : Int) ^ s._first.length ≤ 2 ^ (LONG_BITS - 1) - 1)
    (hneg : number < 0) (hmag : -number ≤ 10 ^ (s._first.length - 1) - 1) :
    ∃ s', printDecInt s number = some s' ∧ s'._first.length = s._first.length ∧
      ∀ k, k < s._first.length → ∃ d, s'._first[k]? = some d ∧
        d.content = (if k = s._first.length - 1 then 45
          else if 0 < (-number) / 10 ^ k then 48 + (((-number) / 10 ^ k) % 10).toNat
          else 32) ∧
        d.dot = decide (k = 0) := by
  have h9 := digits_le_nine _ hrep
  refine ⟨_, printDecInt_neg_digits_eq s number hcount (by omega) h9 hneg hmag, ?_, ?_⟩
  · simp [decNegDigits_length, setFirstDot_length]
  · intro k hk
    have hm : (0 : Int) ≤ -number := by linarith
    simp only [setFirstDot_getElem?, decNegDigits_getElem? _ _ _ hm]
    obtain ⟨d, hd⟩ : ∃ d, s._first[k]? = some d := ⟨_, List.getElem?_eq_getElem hk⟩
    rw [hd]
    have h1 : (1 + k = s._first.length) = (k = s._first.length - 1) := by
      apply propext
      omega
    by_cases hk0 : k = 0
    · subst hk0
      simp [← h1]
    · simp [hk0, h1]

/-- Instance of digit extraction below the minus sign: -5 on the four digit display. -/
theorem printDecInt_neg_in_range_witness :
    (∃ s', printDecInt demo4 (-5) = some s' ∧ s'._first.length = demo4._first.length ∧
      ∀ k, k < demo4._first.length → ∃ d, s'._first[k]? = some d ∧
        d.content = (if k = demo4._first.length - 1 then 45
          else if 0 < (-(-5 : Int)) / 10 ^ k then 48 + (((-(-5 : Int)) / 10 ^ k) % 10).toNat
          else 32) ∧
        d.dot = decide (k = 0)) ∧
    (printDecInt demo4 (-5)).map contents = some [53, 32, 32, 45] ∧
    (printDecInt demo4 (-5)).map dots = some [true, false, false, false] :=
  ⟨printDecInt_neg_in_range demo4 (-5) (by decide) (by decide) (by decide) (by decide)
    (by decide), by decide, by decide⟩

/-- C3, evaluation at a ten digit chain: the threshold loop wraps in `long int`
(`10^10` becomes 1410065408), and -999999999, whose magnitude fits the nine positions below
the sign, is rendered as the negative overflow pattern instead of its digits. -/
theorem printDecInt_neg_ten_digits :
    demo10._digits = 10 ∧ demo10._first.length = 10 ∧
    (1 : Int) ≤ 999999999 ∧ (999999999 : Int) ≤ 10 ^ (10 - 1) - 1 ∧
    decThreshold 10 = 1410065407 ∧
    (printDecInt demo10 (-999999999)).map contents =
      some [32, 32, 32, 32, 32, 32, 32, 32, 32, 45] ∧
    (printDecInt demo10 (-999999999)).map dots =
      some [true, true, true, false, false, false, false, false, false, false] := by
  refine ⟨by decide, by decide, by decide, by decide, by decide, by decide, by decide⟩

/-- C4 as stated fails: on the four digit display -5000 has a magnitude below
`10^4 - 1 = 9999` and is rendered as the negative overflow pattern, not by digit extraction. -/
theorem printDecInt_neg_threshold_counterexample :
    demo4._digits = 4 ∧ demo4._first.length = 4 ∧ (5000 : Int) ≤ 10 ^ 4 - 1 ∧
    (printDecInt demo4 (-5000)).map contents = some [32, 32, 32, 45] ∧
    (printDecInt demo4 (-5000)).map dots = some [true, true, true, false] := by
  refine ⟨by decide, by decide, by decide, by decide, by decide⟩

/-- C4 (amended): on a chain of `n >= 1` digits with `10^n` representable in `long int`, a
negative number is rendered as the negative overflow pattern if and only if its magnitude
exceeds `10^(n-1) - 1` (the minus sign uses one position), and every negative number with
`|number| <= 10^(n-1) - 1` is rendered by digit extraction with the dot at entry 0 only. -/
theorem printDecInt_neg_overflow_iff (s : SSDisplay) (number : Int)
    (hcount : s._digits = s._first.length) (hn : 1 ≤ s._first.length)
    (hrep : (10 : Int) ^ s._first.length ≤ 2 ^ (LONG_BITS - 1) - 1)
    (hneg : number < 0) :
    ∃ s', printDecInt s number = some s' ∧ s'._first.length = s._first.length ∧
      (NegOverflowPattern s'._first ↔ 10 ^ (s._first.length - 1) - 1 < -number) ∧
      (-number ≤ 10 ^ (s._first.length - 1) - 1 → NegDigitsPattern (-number) s'._first) := by
  have h9 := digits_le_nine _ hrep
  by_cases hmag : 10 ^ (s._first.length - 1) - 1 < -number
  · refine ⟨_, printDecInt_neg_overflow_eq s number hcount hn h9 hneg hmag, ?_, ?_, ?_⟩
    · simp [decNegOverflow_length]
    · exact ⟨fun _ => hmag, fun _ => decNegOverflow_pattern s._first⟩
    · intro h
      linarith
  · have hmag2 : -number ≤ 10 ^ (s._first.length - 1) - 1 := by linarith
    have hdig : NegDigitsPattern (-number)
        (setFirstDot (decNegDigits s._first.length (-number) 1 s._first)) :=
      decNegDigits_pattern s._first (-number) (by linarith)
    refine ⟨_, printDecInt_neg_digits_eq s number hcount hn h9 hneg hmag2, ?_, ?_, ?_⟩
    · simp [decNegDigits_length, setFirstDot_length]
    · refine ⟨fun hov => ?_, fun h => absurd h hmag⟩
      exfalso
      have hn2 : 2 ≤ s._first.length := by
        by_contra hc
        have h1 : s._first.length = 1 := by omega
        rw [h1] at hmag2
        norm_num at hmag2
        linarith
      have hlen : 1 < (setFirstDot (decNegDigits s._first.length (-number) 1 s._first)).length := by
        rw [setFirstDot_length, decNegDigits_length]
        omega
      have hget := List.getElem?_eq_getElem hlen
      have ha := (hov 1 _ hget).2
      have hb := (hdig 1 _ hget).2
      have hdot := ha.mpr (by norm_num)
      have := hb.mp hdot
      omega
    · intro _
      exact hdig

/-- Instance of amended C4: -5000 on the four digit display. -/
theorem printDecInt_neg_overflow_iff_witness :
    ∃ s', printDecInt demo4 (-5000) = some s' ∧ s'._first.length = demo4._first.length ∧
      (NegOverflowPattern s'._first ↔ 10 ^ (demo4._first.length - 1) - 1 < -(-5000 : Int)) ∧
      (-(-5000 : Int) ≤ 10 ^ (demo4._first.length - 1) - 1 →
        NegDigitsPattern (-(-5000 : Int)) s'._first) :=
  printDecInt_neg_overflow_iff demo4 (-5000) (by decide) (by decide) (by decide) (by decide)

/-! ## Hexadecimal rendering -/

theorem hexDigits_length (l : List SSDisplay_digit_s) (t i : Nat) :
    (hexDigits t i l).length = l.length := by
  induction l generalizing t i with
  | nil => simp [hexDigits]
  | cons d r ih => simp [hexDigits, ih]

theorem hexDigits_getElem? (l : List SSDisplay_digit_s) (t i k : Nat) :
    (hexDigits t i l)[k]? =
      (l[k]?).map (fun d => { d with
        content := if 0 < t / 16 ^ k ∨ i + k ≤ 1 then hexChar ((t / 16 ^ k) % 16) else 32
        dot := false }) := by
  induction l generalizing t i k with
  | nil => simp [hexDigits]
  | cons d rest ih =>
    cases k with
    | zero =>
      have h : (if t % 16 < 10 then 48 + t % 16 else 65 + t % 16 - 10) = hexChar (t % 16) := by
        unfold hexChar
        split_ifs <;> omega
      simp [hexDigits, h]
    | succ k =>
      have hp : t / 16 / 16 ^ k = t / 16 ^ (k + 1) := by
        rw [Nat.div_div_eq_div_mul, pow_succ']
      have hi : i + 1 + k = i + (k + 1) := by omega
      simp only [hexDigits, List.getElem?_cons_succ, ih, hp, hi]

theorem printHexInt_eq (s : SSDisplay) (number : Nat) (hne : s._first ≠ []) :
    printHexInt s number = some { s with _first := hexDigits number 1 s._first } := by
  unfold printHexInt
  cases hf : s._first with
  | nil => exact absurd hf hne
  | cons d0 rest => rfl

/-- The character written for a digit value reads back as that value. -/
theorem readHexChar_hexChar (v : Nat) (hv : v < 16) : readHexChar (hexChar v) = v := by
  unfold readHexChar hexChar
  split_ifs <;> omega

/-- The values read back from the loop of `printHexInt` are the low base-16 digits. -/
theorem hexDigits_value (l : List SSDisplay_digit_s) (t i : Nat) :
    Nat.ofDigits 16 ((hexDigits t i l).map (fun d => readHexChar d.content)) =
      t % 16 ^ l.length := by
  induction l generalizing t i with
  | nil => simp [hexDigits, Nat.mod_one]
  | cons d rest ih =>
    have hv : readHexChar (if t > 0 ∨ i ≤ 1 then
        (if t % 16 < 10 then 48 + t % 16 else 65 + t % 16 - 10) else 32) = t % 16 := by
      have h16 : t % 16 < 16 := Nat.mod_lt _ (by norm_num)
      unfold readHexChar
      split_ifs <;> omega
    simp only [hexDigits, List.map_cons, Nat.ofDigits_cons, ih, hv, List.length_cons]
    rw [pow_succ', Nat.mod_mul]

/-- The positional sum over a list of digit values is `Nat.ofDigits`. -/
theorem sum_eq_ofDigits (f : Nat → Nat) (l : List Nat) :
    Finset.sum (Finset.range l.length) (fun k => f (l.getD k 0) * 16 ^ k) =
      Nat.ofDigits 16 (l.map f) := by
  induction l with
  | nil => simp
  | cons a rest ih =>
    rw [List.length_cons, Finset.sum_range_succ', List.map_cons, Nat.ofDigits_cons, ← ih,
      Finset.mul_sum]
    simp only [List.getD_cons_succ, List.getD_cons_zero, pow_zero, mul_one, pow_succ]
    rw [Nat.add_comm]
    congr 1
    apply Finset.sum_congr rfl
    intro k _
    ring

/-- C5: on a chain of `n >= 1` digits `printHexInt` returns, entry `k` holds the character of
the base-16 digit `(number / 16^k) mod 16` when `number / 16^k > 0` or `k = 0` and the blank
otherwise, and every dot flag is cleared, whatever the entries held before. -/
theorem printHexInt_entries (s : SSDisplay) (number : Nat) (hn : 1 ≤ s._first.length) :
    ∃ s', printHexInt s number = some s' ∧ s'._first.length = s._first.length ∧
      ∀ k, k < s._first.length → ∃ d, s'._first[k]? = some d ∧
        d.content =
          (if 0 < number / 16 ^ k ∨ k = 0 then hexChar ((number / 16 ^ k) % 16) else 32) ∧
        d.dot = false := by
  have hne : s._first ≠ [] := by
    intro h
    rw [h] at hn
    simp at hn
  refine ⟨_, printHexInt_eq s number hne, ?_, ?_⟩
  · simp [hexDigits_length]
  · intro k hk
    simp only [hexDigits_getElem?]
    obtain ⟨d, hd⟩ : ∃ d, s._first[k]? = some d := ⟨_, List.getElem?_eq_getElem hk⟩
    rw [hd]
    have h1 : (1 + k ≤ 1) = (k = 0) := by
      apply propext
      omega
    refine ⟨_, rfl, ?_, rfl⟩
    simp only [h1]

/-- Instance of C5 on the two digit display, with the renderings of 255 and 256. -/
theorem printHexInt_entries_witness :
    (∃ s', printHexInt demo2 255 = some s' ∧ s'._first.length = demo2._first.length ∧
      ∀ k, k < demo2._first.length → ∃ d, s'._first[k]? = some d ∧
        d.content = (if 0 < 255 / 16 ^ k ∨ k = 0 then hexChar ((255 / 16 ^ k) % 16) else 32) ∧
        d.dot = false) ∧
    (printHexInt demo2 255).map contents = some [70, 70] ∧
    (printHexInt demo2 256).map contents = some [48, 48] ∧
    (printHexInt demo2 256).map dots = some [false, false] :=
  ⟨printHexInt_entries demo2 255 (by decide), by decide, by decide, by decide⟩

/-- C6: on a chain of `n >= 1` digits, the entries written by `printHexInt`, read back as
base-16 digit values (blank read as 0) and summed with weights `16^k`, give
`number mod 16^n`; the number itself is recovered when `number < 16^n`. -/
theorem printHexInt_value (s : SSDisplay) (number : Nat) (hn : 1 ≤ s._first.length) :
    ∃ s', printHexInt s number = some s' ∧ s'._first.length = s._first.length ∧
      Finset.sum (Finset.range s._first.length)
        (fun k => readHexChar ((contents s').getD k 0) * 16 ^ k) = number % 16 ^ s._first.length ∧
      (number < 16 ^ s._first.length →
        Finset.sum (Finset.range s._first.length)
          (fun k => readHexChar ((contents s').getD k 0) * 16 ^ k) = number) := by
  have hne : s._first ≠ [] := by
    intro h
    rw [h] at hn
    simp at hn
  have hlen : (contents { s with _first := hexDigits number 1 s._first }).length =
      s._first.length := by
    simp [contents, hexDigits_length]
  have hsum : Finset.sum (Finset.range s._first.length)
      (fun k => readHexChar ((contents { s with _first := hexDigits number 1 s._first }).getD k 0)
        * 16 ^ k) = number % 16 ^ s._first.length := by
    rw [← hlen, sum_eq_ofDigits readHexChar, hlen]
    simp only [contents, List.map_map]
    exact hexDigits_value s._first number 1
  refine ⟨_, printHexInt_eq s number hne, ?_, hsum, ?_⟩
  · simp [hexDigits_length]
  · intro hlt
    rw [hsum, Nat.mod_eq_of_lt hlt]

/-- Instance of C6: 256 on the two digit display reads back as `256 mod 16^2 = 0`. -/
theorem printHexInt_value_witness :
    ∃ s', printHexInt demo2 256 = some s' ∧ s'._first.length = demo2._first.length ∧
      Finset.sum (Finset.range demo2._first.length)
        (fun k => readHexChar ((contents s').getD k 0) * 16 ^ k) =
          256 % 16 ^ demo2._first.length ∧
      (256 < 16 ^ demo2._first.length →
        Finset.sum (Finset.range demo2._first.length)
          (fun k => readHexChar ((contents s').getD k 0) * 16 ^ k) = 256) :=
  printHexInt_value demo2 256 (by decide)

/-! ## The segment encoder -/

/-- The constructor establishes the polarity of its segment mode. -/
theorem new_segmentPolarity (a b c d e f g h : Nat) (m dm : SSDisplayMode_e) :
    SegmentPolarity (SSDisplay.new a b c d e f g h m dm) m :=
  ⟨rfl, rfl⟩

/-- The two levels of a polarity differ. -/
theorem SegmentPolarity.on_ne_off {s : SSDisplay} {m : SSDisplayMode_e}
    (h : SegmentPolarity s m) : s._on ≠ s._off := by
  obtain ⟨h1, h2⟩ := h
  rw [h1, h2]
  cases m <;> decide

/-- C7: the encoder is case-insensitive on the hex letters: for `c` in `'a'..'f'`,
`updateCurrent(c, dot)` yields the same eight segment levels (and in fact the same state and
pin writes) as `updateCurrent` of the upper-case letter `c - 32`, for every display state
and so for either polarity. -/
theorem updateCurrent_lower_hex (s : SSDisplay) (c : Nat) (dot : Bool)
    (hlo : 97 ≤ c) (hhi : c ≤ 102) :
    (updateCurrent s c dot)._seg_cont = (updateCurrent s (c - 32) dot)._seg_cont ∧
    updateCurrent s c dot = updateCurrent s (c - 32) dot := by
  have h1 : (if 97 ≤ c ∧ c ≤ 122 then c - 97 + 65 else c) = c - 32 := by
    rw [if_pos ⟨hlo, by omega⟩]
    omega
  have h2 : (if 97 ≤ c - 32 ∧ c - 32 ≤ 122 then c - 32 - 97 + 65 else c - 32) = c - 32 := by
    rw [if_neg (by omega)]
  have h : updateCurrent s c dot = updateCurrent s (c - 32) dot := by
    unfold updateCurrent
    simp only [h1, h2]
  exact ⟨by rw [h], h⟩

/-- Instance of C7: `'a'` and `'A'` with the dot on, on the four digit display. -/
theorem updateCurrent_lower_hex_witness :
    (updateCurrent demo4 97 true)._seg_cont = (updateCurrent demo4 (97 - 32) true)._seg_cont ∧
    updateCurrent demo4 97 true = updateCurrent demo4 (97 - 32) true :=
  updateCurrent_lower_hex demo4 97 true (by decide) (by decide)

/-- C8: for either segment polarity, the blank and `'-'` without dot both have segments
A..F and H at the off level, and they differ in exactly one of the eight positions, segment
G: off for the blank, on for `'-'`. -/
theorem updateCurrent_blank_minus (s : SSDisplay) (m : SSDisplayMode_e)
    (hpol : SegmentPolarity s m) :
    (updateCurrent s 32 false)._seg_cont =
      [s._off, s._off, s._off, s._off, s._off, s._off, s._off, s._off] ∧
    (updateCurrent s 45 false)._seg_cont =
      [s._off, s._off, s._off, s._off, s._off, s._off, s._on, s._off] ∧
    s._on ≠ s._off ∧
    ∀ i, i < 8 → ((updateCurrent s 32 false)._seg_cont[i]? ≠
      (updateCurrent s 45 false)._seg_cont[i]? ↔ i = SEG_G) := by
  have hne := hpol.on_ne_off
  have hb : (updateCurrent s 32 false)._seg_cont =
      [s._off, s._off, s._off, s._off, s._off, s._off, s._off, s._off] := by
    simp [updateCurrent, _display, SEG_A, SEG_B, SEG_C, SEG_D, SEG_E, SEG_F, SEG_G, SEG_H,
      List.replicate]
  have hm : (updateCurrent s 45 false)._seg_cont =
      [s._off, s._off, s._off, s._off, s._off, s._off, s._on, s._off] := by
    simp [updateCurrent, _display, SEG_A, SEG_B, SEG_C, SEG_D, SEG_E, SEG_F, SEG_G, SEG_H,
      List.replicate]
  refine ⟨hb, hm, hne, ?_⟩
  intro i hi
  rw [hb, hm]
  have hne2 : s._off ≠ s._on := fun h => hne h.symm
  interval_cases i <;> simp [SEG_G, hne2]

/-- Instance of C8 on the four digit display (segment mode `NEGATIVE`). -/
theorem updateCurrent_blank_minus_witness :
    (updateCurrent demo4 32 false)._seg_cont =
      [demo4._off, demo4._off, demo4._off, demo4._off, demo4._off, demo4._off, demo4._off,
        demo4._off] ∧
    (updateCurrent demo4 45 false)._seg_cont =
      [demo4._off, demo4._off, demo4._off, demo4._off, demo4._off, demo4._off, demo4._on,
        demo4._off] ∧
    demo4._on ≠ demo4._off ∧
    ∀ i, i < 8 → ((updateCurrent demo4 32 false)._seg_cont[i]? ≠
      (updateCurrent demo4 45 false)._seg_cont[i]? ↔ i = SEG_G) :=
  updateCurrent_blank_minus demo4 SSDisplayMode_e.NEGATIVE ⟨by decide, by decide⟩

/-- One conditional clearing of a segment in a buffer of eight entries. -/
theorem set_if (p : Prop) [Decidable p] (l : List Level) (i : Nat) (x : Level) :
    (if p then l.set i x else l) = l.set i (if p then x else l.getD i x) := by
  by_cases hp : p
  · simp [hp]
  · simp only [hp, if_false]
    induction l generalizing i with
    | nil => simp
    | cons a rest ih =>
      cases i with
      | zero => simp
      | succ i =>
        simp only [List.set_cons_succ, List.getD_cons_succ]
        rw [← ih]

/-- Closed form of the segment buffer computed by `updateCurrent`: each of A..G is off
exactly when the folded character is in that segment's off set, H is on exactly when the
dot flag is set. -/
theorem updateCurrent_seg_cont (s : SSDisplay) (c : Nat) (dot : Bool) :
    (updateCurrent s c dot)._seg_cont =
      [ (if (if 97 ≤ c ∧ c ≤ 122 then c - 97 + 65 else c) ∈ [49, 52, 66, 68, 32, 45]
          then s._off else s._on),
        (if (if 97 ≤ c ∧ c ≤ 122 then c - 97 + 65 else c) ∈ [53, 54, 66, 67, 69, 70, 32, 45]
          then s._off else s._on),
        (if (if 97 ≤ c ∧ c ≤ 122 then c - 97 + 65 else c) ∈ [50, 67, 69, 70, 32, 45]
          then s._off else s._on),
        (if (if 97 ≤ c ∧ c ≤ 122 then c - 97 + 65 else c) ∈ [49, 52, 55, 65, 70, 32, 45]
          then s._off else s._on),
        (if (if 97 ≤ c ∧ c ≤ 122 then c - 97 + 65 else c) ∈ [49, 51, 52, 53, 55, 57, 32, 45]
          then s._off else s._on),
        (if (if 97 ≤ c ∧ c ≤ 122 then c - 97 + 65 else c) ∈ [49, 50, 51, 55, 68, 32, 45]
          then s._off else s._on),
        (if (if 97 ≤ c ∧ c ≤ 122 then c - 97 + 65 else c) ∈ [48, 49, 55, 67, 32]
          then s._off else s._on),
        (if dot = true then s._on else s._off) ] := by
  simp only [updateCurrent, _display]
  generalize (if 97 ≤ c ∧ c ≤ 122 then c - 97 + 65 else c) = k
  have hE : (k = 49 ∨ (51 ≤ k ∧ k ≤ 53) ∨ k = 55 ∨ k = 57 ∨ k = 32 ∨ k = 45) ↔
      k ∈ [49, 51, 52, 53, 55, 57, 32, 45] := by
    simp only [List.mem_cons, List.mem_singleton, List.not_mem_nil, or_false]
    omega
  have hF : ((49 ≤ k ∧ k ≤ 51) ∨ k = 55 ∨ k = 68 ∨ k = 32 ∨ k = 45) ↔
      k ∈ [49, 50, 51, 55, 68, 32, 45] := by
    simp only [List.mem_cons, List.mem_singleton, List.not_mem_nil, or_false]
    omega
  simp only [set_if, hE, hF, SEG_A, SEG_B, SEG_C, SEG_D, SEG_E, SEG_F, SEG_G, SEG_H]
  cases dot <;> simp [List.replicate]

/-- C9: the decimal point is driven solely by the flag: for every character code, every dot
flag and either polarity, segment H is at the on level if and only if the flag is set, and
the levels of segments A..G do not depend on the flag. -/
theorem updateCurrent_dot_only (s : SSDisplay) (m : SSDisplayMode_e)
    (hpol : SegmentPolarity s m) (c : Nat) (dot : Bool) :
    ((updateCurrent s c dot)._seg_cont[SEG_H]? = some s._on ↔ dot = true) ∧
    (updateCurrent s c true)._seg_cont.take 7 = (updateCurrent s c false)._seg_cont.take 7 := by
  have hne := hpol.on_ne_off
  have hne2 : s._off ≠ s._on := fun h => hne h.symm
  refine ⟨?_, ?_⟩
  · rw [updateCurrent_seg_cont]
    cases dot <;> simp [SEG_H, hne2]
  · rw [updateCurrent_seg_cont, updateCurrent_seg_cont]
    simp

/-- Instance of C9: `'z'` (an undocumented character) on the four digit display. -/
theorem updateCurrent_dot_only_witness :
    ((updateCurrent demo4 122 true)._seg_cont[SEG_H]? = some demo4._on ↔ true = true) ∧
    (updateCurrent demo4 122 true)._seg_cont.take 7 =
      (updateCurrent demo4 122 false)._seg_cont.take 7 :=
  updateCurrent_dot_only demo4 SSDisplayMode_e.NEGATIVE ⟨by decide, by decide⟩ 122 true

/-! ## Pin levels along a log -/

theorem pinLevel_append_write (log : List PinOp) (p q : Nat) (l : Level) :
    pinLevel (log ++ [PinOp.write p l]) q = if p = q then some l else pinLevel log q := by
  simp [pinLevel, List.foldl_append]

theorem pinLevel_append_mode (log : List PinOp) (p q : Nat) :
    pinLevel (log ++ [PinOp.mode p]) q = pinLevel log q := by
  simp [pinLevel, List.foldl_append]

/-- Operations that do not write to `q` leave its level unchanged. -/
theorem pinLevel_append_other (log ops : List PinOp) (q : Nat)
    (h : ∀ l, PinOp.write q l ∉ ops) : pinLevel (log ++ ops) q = pinLevel log q := by
  induction ops using List.reverseRecOn with
  | nil => simp
  | append_singleton ops op ih =>
    have ih2 := ih (fun l hl => h l (List.mem_append_left _ hl))
    rw [← List.append_assoc]
    cases op with
    | mode p => rw [pinLevel_append_mode, ih2]
    | write p l =>
      rw [pinLevel_append_write, ih2]
      have hpq : p ≠ q := by
        intro hpq
        subst hpq
        exact h l (List.mem_append_right _ (List.mem_singleton.mpr rfl))
      rw [if_neg hpq]

theorem active_ne_inactive (m : SSDisplayMode_e) : activeLevel m ≠ inactiveLevel m := by
  cases m <;> decide

/-- At most one element of a list satisfies a predicate that fails away from position `c`. -/
theorem countP_le_one_of_except {α : Type} (p : α → Bool) (l : List α) (c : Nat)
    (h : ∀ i d, l[i]? = some d → i ≠ c → p d = false) : l.countP p ≤ 1 := by
  induction l generalizing c with
  | nil => simp
  | cons a rest ih =>
    cases c with
    | zero =>
      have h0 : rest.countP p = 0 := by
        rw [List.countP_eq_zero]
        intro d hd
        obtain ⟨i, hi, hget⟩ := List.getElem_of_mem hd
        have := h (i + 1) d (by simp [List.getElem?_eq_getElem hi, hget]) (by omega)
        simp [this]
      rw [List.countP_cons, h0]
      split <;> omega
    | succ c =>
      have ha : p a = false := h 0 a (by simp) (by omega)
      have hr := ih c (fun i d hd hi => h (i + 1) d (by simpa using hd) (by omega))
      rw [List.countP_cons, ha]
      simpa using hr

/-- When every common line except possibly the one at `c` is inactive, at most one is
enabled. -/
theorem enabledCount_le_one (dm : SSDisplayMode_e) (chain : List SSDisplay_digit_s)
    (pins : List Nat) (log : List PinOp) (c : Nat)
    (hchain : chain.map (fun d => d.pin) = pins)
    (hq : ∀ i, i < pins.length → i ≠ c →
      pinLevel log (pins.getD i 0) = some (inactiveLevel dm)) :
    enabledCount dm chain log ≤ 1 := by
  unfold enabledCount
  apply countP_le_one_of_except _ _ c
  intro i d hd hi
  have hlt : i < chain.length := by
    by_contra hc
    rw [List.getElem?_eq_none (by omega)] at hd
    exact Option.noConfusion hd
  have hpin : pins.getD i 0 = d.pin := by
    subst hchain
    simp [List.getD, hd]
  have hlt2 : i < pins.length := by
    subst hchain
    simpa using hlt
  have := hq i hlt2 hi
  rw [hpin] at this
  rw [this]
  have hne := active_ne_inactive dm
  simp only [Option.some.injEq, decide_eq_false_iff_not]
  exact fun h => hne h.symm

/-- A property of all prefixes of `a ++ b` follows from the prefixes of `a` and those of `b`
after `a`. -/
theorem prefixes_append (P : List PinOp → Prop) (base a b : List PinOp)
    (ha : ∀ t, t ≤ a.length → P (base ++ a.take t))
    (hb : ∀ t, t ≤ b.length → P (base ++ a ++ b.take t)) :
    ∀ t, t ≤ (a ++ b).length → P (base ++ (a ++ b).take t) := by
  intro t ht
  rw [List.take_append_eq_append_take]
  by_cases hta : t ≤ a.length
  · have : t - a.length = 0 := by omega
    rw [this]
    simpa using ha t hta
  · have h1 : a.take t = a := List.take_of_length_le (by omega)
    rw [h1, ← List.append_assoc]
    apply hb
    simp only [List.length_append] at ht
    omega

/-! ## One `refreshNext` call -/

@[simp] theorem updateCurrent_first (s : SSDisplay) (c : Nat) (dot : Bool) :
    (updateCurrent s c dot)._first = s._first := rfl

@[simp] theorem updateCurrent_next (s : SSDisplay) (c : Nat) (dot : Bool) :
    (updateCurrent s c dot)._next = s._next := rfl

@[simp] theorem updateCurrent_digitMode (s : SSDisplay) (c : Nat) (dot : Bool) :
    (updateCurrent s c dot)._digitMode = s._digitMode := rfl

@[simp] theorem updateCurrent_seg_pins (s : SSDisplay) (c : Nat) (dot : Bool) :
    (updateCurrent s c dot)._seg_pins = s._seg_pins := rfl

@[simp] theorem updateCurrent_digits (s : SSDisplay) (c : Nat) (dot : Bool) :
    (updateCurrent s c dot)._digits = s._digits := rfl

/-- The pin writes of `updateCurrent`: the eight segment lines, in order. -/
theorem updateCurrent_log (s : SSDisplay) (c : Nat) (dot : Bool) :
    (updateCurrent s c dot).log = s.log ++ (List.range 8).map (fun i =>
      PinOp.write (s._seg_pins.getD i 0)
        ((updateCurrent s c dot)._seg_cont.getD i Level.LOW)) := rfl

/-- Explicit form of one `refreshNext` call on a non-empty chain whose cursor designates
position `c` (position 0 while it is `NULL`). -/
theorem refreshNext_eq (s : SSDisplay) (c : Nat) (dc dn : SSDisplay_digit_s)
    (hcur : s._next = some c ∨ (s._next = none ∧ c = 0))
    (hdc : s._first[c]? = some dc)
    (hdn : s._first[nextIdx s._first.length c]? = some dn) :
    refreshNext s = some (updateCurrent
      (digitalWrite
        { digitalWrite (blankCurrent { s with _next := some c }) dc.pin
            (inactiveLevel s._digitMode) with _next := some (nextIdx s._first.length c) }
        dn.pin (activeLevel s._digitMode))
      dn.content dn.dot) := by
  obtain ⟨sp, sc, lon, loff, first, next, dm, dg, log⟩ := s
  simp only at hcur hdc hdn ⊢
  cases first with
  | nil => simp at hdc
  | cons d0 rest =>
    have hnext : next = some c ∨ (next = none ∧ c = 0) := hcur
    by_cases hlt : c < rest.length
    · have hni : nextIdx (rest.length + 1) c = c + 1 := by simp [nextIdx, hlt]
      rw [List.length_cons, hni] at hdn
      have hnle : ¬ rest.length ≤ c := by omega
      rcases hnext with h | ⟨h, h0⟩
      · subst h
        cases dm <;>
          simp [refreshNext, blankCurrent, digitalWrite, nextOf, hni, activeLevel,
            inactiveLevel, hdc, hdn, hlt, hnle]
      · subst h h0
        cases dm <;>
          simp [refreshNext, blankCurrent, digitalWrite, nextOf, hni, activeLevel,
            inactiveLevel, hdc, hdn, hlt, hnle]
    · have hni : nextIdx (rest.length + 1) c = 0 := by simp [nextIdx, hlt]
      rw [List.length_cons, hni] at hdn
      have hle : rest.length ≤ c := by omega
      rcases hnext with h | ⟨h, h0⟩
      · subst h
        cases dm <;>
          simp [refreshNext, blankCurrent, digitalWrite, nextOf, hni, activeLevel,
            inactiveLevel, hdc, hdn, hlt, hle]
      · subst h h0
        simp only [List.getElem?_cons_zero, Option.some.injEq] at hdn hdc
        subst hdn hdc
        cases dm <;>
          simp [refreshNext, blankCurrent, digitalWrite, nextOf, hni, activeLevel,
            inactiveLevel, hlt, hle]

/-- The pin writes of `updateCurrent` all go to segment pins. -/
theorem updateCurrent_log_seg (s : SSDisplay) (c : Nat) (dot : Bool) :
    ∃ w, (updateCurrent s c dot).log = s.log ++ w ∧
      ∀ op ∈ w, ∃ i l, i < 8 ∧ op = PinOp.write (s._seg_pins.getD i 0) l := by
  refine ⟨_, updateCurrent_log s c dot, ?_⟩
  intro op hop
  rw [List.mem_map] at hop
  obtain ⟨i, hi, rfl⟩ := hop
  exact ⟨i, _, List.mem_range.mp hi, rfl⟩

/-! ## `addDigit` -/

theorem linkLast_eq_append (l : List SSDisplay_digit_s) (node : SSDisplay_digit_s) :
    linkLast l node = l ++ [node] := by
  induction l with
  | nil => rfl
  | cons d rest ih => simp [linkLast, ih]

/-- Explicit form of `addDigit`. -/
theorem addDigit_eq (s : SSDisplay) (pin : Nat) :
    addDigit s pin = { s with
      _first := s._first ++ [{ content := 32, dot := false, pin := pin }]
      _digits := s._digits + 1
      log := s.log ++ [PinOp.mode pin, PinOp.write pin (inactiveLevel s._digitMode)] } := by
  obtain ⟨sp, sc, lon, loff, first, next, dm, dg, log⟩ := s
  cases dm <;> simp [addDigit, pinMode, digitalWrite, inactiveLevel, linkLast_eq_append]

/-- After `addDigits` every common line is at the inactive level and the cursor is as before. -/
theorem addDigits_inv (segs : List Nat) (dm : SSDisplayMode_e) (pins : List Nat) :
    ∀ s : SSDisplay, s._seg_pins = segs → s._digitMode = dm → s._next = none →
      (∀ p ∈ s._first.map (fun d => d.pin), pinLevel s.log p = some (inactiveLevel dm)) →
      (addDigits s pins)._first.map (fun d => d.pin) = s._first.map (fun d => d.pin) ++ pins ∧
      (addDigits s pins)._seg_pins = segs ∧ (addDigits s pins)._digitMode = dm ∧
      (addDigits s pins)._next = none ∧
      ∀ p ∈ s._first.map (fun d => d.pin) ++ pins,
        pinLevel (addDigits s pins).log p = some (inactiveLevel dm) := by
  induction pins with
  | nil =>
    intro s h1 h2 h3 h4
    simpa [addDigits, h1, h2, h3] using h4
  | cons q rest ih =>
    intro s h1 h2 h3 h4
    have hstep : addDigits s (q :: rest) = addDigits (addDigit s q) rest := rfl
    rw [hstep]
    have hq : ∀ p ∈ (addDigit s q)._first.map (fun d => d.pin),
        pinLevel (addDigit s q).log p = some (inactiveLevel dm) := by
      intro p hp
      rw [addDigit_eq] at hp ⊢
      simp only [List.map_append, List.map_cons, List.map_nil, List.mem_append,
        List.mem_singleton] at hp
      have hlog : ∀ l, s.log ++ [PinOp.mode q, PinOp.write q l] =
          (s.log ++ [PinOp.mode q]) ++ [PinOp.write q l] := by simp
      simp only [hlog, pinLevel_append_write, pinLevel_append_mode, h2]
      split
      · rfl
      · rcases hp with hp | hp
        · exact h4 p hp
        · exact absurd hp.symm (by assumption)
    have := ih (addDigit s q) (by rw [addDigit_eq]; exact h1) (by rw [addDigit_eq]; exact h2)
      (by rw [addDigit_eq]; exact h3) hq
    have hfirst : (addDigit s q)._first.map (fun d => d.pin) =
        s._first.map (fun d => d.pin) ++ [q] := by
      rw [addDigit_eq]
      simp
    rw [hfirst] at this
    simpa [List.append_assoc] using this

/-- The digit at a position of the chain drives the pin at that position. -/
theorem chain_get (chain : List SSDisplay_digit_s) (pins : List Nat)
    (h : chain.map (fun d => d.pin) = pins) (i : Nat) (hi : i < pins.length) :
    ∃ d, chain[i]? = some d ∧ d.pin = pins.getD i 0 := by
  subst h
  have hi2 : i < chain.length := by simpa using hi
  refine ⟨chain[i], List.getElem?_eq_getElem hi2, ?_⟩
  simp [List.getD, List.getElem?_eq_getElem hi2]

/-- Distinct positions of a duplicate-free pin list hold distinct pins. -/
theorem pins_ne (pins : List Nat) (hnd : pins.Nodup) (i j : Nat) (hi : i < pins.length)
    (hj : j < pins.length) (hij : i ≠ j) : pins.getD i 0 ≠ pins.getD j 0 := by
  rw [List.getD_eq_getElem _ _ hi, List.getD_eq_getElem _ _ hj]
  intro h
  exact hij ((hnd.getElem_inj_iff).mp h)

theorem nextIdx_lt (n c : Nat) (hn : 0 < n) : nextIdx n c < n := by
  unfold nextIdx
  split <;> omega

/-- Writes to segment pins leave the common lines unchanged. -/
theorem pinLevel_seg (pins segs : List Nat) (hseg : ∀ i, i < 8 → segs.getD i 0 ∉ pins)
    (log w : List PinOp)
    (hw : ∀ op ∈ w, ∃ i l, i < 8 ∧ op = PinOp.write (segs.getD i 0) l)
    (q : Nat) (hq : q ∈ pins) : pinLevel (log ++ w) q = pinLevel log q := by
  apply pinLevel_append_other
  intro l hl
  obtain ⟨i, l2, hi, he⟩ := hw _ hl
  injection he with h1 h2
  rw [h1] at hq
  exact hseg i hi hq

/-- Segment writes keep every prefix of the log within the at-most-one bound. -/
theorem prefixes_seg (dm : SSDisplayMode_e) (chain : List SSDisplay_digit_s)
    (pins segs : List Nat) (hchain : chain.map (fun d => d.pin) = pins)
    (hseg : ∀ i, i < 8 → segs.getD i 0 ∉ pins) (log w : List PinOp) (c : Nat)
    (hw : ∀ op ∈ w, ∃ i l, i < 8 ∧ op = PinOp.write (segs.getD i 0) l)
    (hq : ∀ i, i < pins.length → i ≠ c →
      pinLevel log (pins.getD i 0) = some (inactiveLevel dm)) :
    ∀ t, t ≤ w.length → enabledCount dm chain (log ++ w.take t) ≤ 1 := by
  intro t _
  apply enabledCount_le_one dm chain pins _ c hchain
  intro i hi hic
  rw [pinLevel_seg pins segs hseg log (w.take t)
    (fun op hop => hw op (List.mem_of_mem_take hop)) _ ?_]
  · exact hq i hi hic
  · rw [List.getD_eq_getElem _ _ hi]
    exact List.getElem_mem _

/-- The prefixes of a single operation. -/
theorem prefixes_single (P : List PinOp → Prop) (base : List PinOp) (op : PinOp)
    (h0 : P base) (h1 : P (base ++ [op])) :
    ∀ t, t ≤ [op].length → P (base ++ [op].take t) := by
  intro t ht
  simp only [List.length_singleton] at ht
  interval_cases t
  · simpa using h0
  · simpa using h1

/-- Shape of one `refreshNext` call: the chain and the configuration are kept, the cursor
moves to the next position, and the pin writes are segment writes, the inactive level on the
old common pin, the active level on the new common pin, segment writes. -/
theorem refreshNext_shape (s : SSDisplay) (c : Nat) (dc dn : SSDisplay_digit_s)
    (hcur : s._next = some c ∨ (s._next = none ∧ c = 0))
    (hdc : s._first[c]? = some dc)
    (hdn : s._first[nextIdx s._first.length c]? = some dn) :
    ∃ s' w1 w2, refreshNext s = some s' ∧ s'._first = s._first ∧
      s'._seg_pins = s._seg_pins ∧ s'._digitMode = s._digitMode ∧
      s'._next = some (nextIdx s._first.length c) ∧
      s'.log = s.log ++ w1 ++ [PinOp.write dc.pin (inactiveLevel s._digitMode)] ++
        [PinOp.write dn.pin (activeLevel s._digitMode)] ++ w2 ∧
      (∀ op ∈ w1, ∃ i l, i < 8 ∧ op = PinOp.write (s._seg_pins.getD i 0) l) ∧
      (∀ op ∈ w2, ∃ i l, i < 8 ∧ op = PinOp.write (s._seg_pins.getD i 0) l) := by
  obtain ⟨w1, hw1, hw1s⟩ := updateCurrent_log_seg { s with _next := some c } 32 false
  obtain ⟨w2, hw2, hw2s⟩ := updateCurrent_log_seg
    (digitalWrite
      { digitalWrite (blankCurrent { s with _next := some c }) dc.pin
          (inactiveLevel s._digitMode) with _next := some (nextIdx s._first.length c) }
      dn.pin (activeLevel s._digitMode)) dn.content dn.dot
  refine ⟨_, w1, w2, refreshNext_eq s c dc dn hcur hdc hdn, rfl, rfl, rfl, rfl, ?_, hw1s, hw2s⟩
  rw [hw2]
  simp only [digitalWrite, blankCurrent, hw1]

/-- One `refreshNext` call under the cursor invariant: it returns, keeps the chain, moves the
cursor to the next position, writes the active level once, to the pin at that position, and
never has two common lines enabled. -/
theorem refreshNext_step (segs pins : List Nat) (dm : SSDisplayMode_e) (s : SSDisplay)
    (c : Nat) (hI : CursorInv segs pins dm s c) (hnd : pins.Nodup)
    (hseg : ∀ i, i < 8 → segs.getD i 0 ∉ pins) :
    ∃ s' ops, refreshNext s = some s' ∧ s'.log = s.log ++ ops ∧ s'._first = s._first ∧
      CursorInv segs pins dm s' (nextIdx pins.length c) ∧
      (∀ p ∈ pins, ops.count (PinOp.write p (activeLevel dm)) =
        if pins.getD (nextIdx pins.length c) 0 = p then 1 else 0) ∧
      (∀ t, t ≤ ops.length → enabledCount dm s._first (s.log ++ ops.take t) ≤ 1) := by
  obtain ⟨hchain, hsegs, hmode, hcur, hbound, hquiet⟩ := hI
  have hN : 0 < pins.length := by omega
  have hlen : s._first.length = pins.length := by
    rw [← hchain]
    simp
  have hn := nextIdx_lt pins.length c hN
  obtain ⟨dc, hdc, hdcp⟩ := chain_get s._first pins hchain c hbound
  obtain ⟨dn, hdn, hdnp⟩ := chain_get s._first pins hchain _ hn
  obtain ⟨s', w1, w2, heq, hfirst, hsp, hdm, hnext, hw2, hw1s, hw2s⟩ :=
    refreshNext_shape s c dc dn hcur hdc (by rw [hlen]; exact hdn)
  rw [hlen] at hnext
  rw [hmode, hdcp, hdnp] at hw2
  rw [hsegs] at hw1s hw2s hsp
  rw [hmode] at hdm
  have hmem : ∀ i, i < pins.length → pins.getD i 0 ∈ pins := by
    intro i hi
    rw [List.getD_eq_getElem _ _ hi]
    exact List.getElem_mem _
  have hne := active_ne_inactive dm
  -- levels of the common lines along the call
  have hQ1 : ∀ i, i < pins.length → i ≠ c →
      pinLevel (s.log ++ w1) (pins.getD i 0) = some (inactiveLevel dm) := by
    intro i hi hic
    rw [pinLevel_seg pins segs hseg s.log w1 hw1s _ (hmem i hi)]
    exact hquiet i hi hic
  have hQ2 : ∀ i, i < pins.length →
      pinLevel (s.log ++ w1 ++ [PinOp.write (pins.getD c 0) (inactiveLevel dm)])
        (pins.getD i 0) = some (inactiveLevel dm) := by
    intro i hi
    rw [pinLevel_append_write]
    split
    · rfl
    · apply hQ1 i hi
      intro hic
      subst hic
      contradiction
  have hQ3 : ∀ i, i < pins.length → i ≠ nextIdx pins.length c →
      pinLevel (s.log ++ w1 ++ [PinOp.write (pins.getD c 0) (inactiveLevel dm)] ++
        [PinOp.write (pins.getD (nextIdx pins.length c) 0) (activeLevel dm)])
        (pins.getD i 0) = some (inactiveLevel dm) := by
    intro i hi hic
    rw [pinLevel_append_write, if_neg (pins_ne pins hnd _ _ hn hi (Ne.symm hic))]
    exact hQ2 i hi
  have hQ4 : ∀ i, i < pins.length → i ≠ nextIdx pins.length c →
      pinLevel (s.log ++ w1 ++ [PinOp.write (pins.getD c 0) (inactiveLevel dm)] ++
        [PinOp.write (pins.getD (nextIdx pins.length c) 0) (activeLevel dm)] ++ w2)
        (pins.getD i 0) = some (inactiveLevel dm) := by
    intro i hi hic
    rw [pinLevel_seg pins segs hseg _ w2 hw2s _ (hmem i hi)]
    exact hQ3 i hi hic
  refine ⟨s', w1 ++ [PinOp.write (pins.getD c 0) (inactiveLevel dm)] ++
    [PinOp.write (pins.getD (nextIdx pins.length c) 0) (activeLevel dm)] ++ w2, heq, ?_, hfirst,
    ?_, ?_, ?_⟩
  · rw [hw2]
    simp only [List.append_assoc]
  · refine ⟨by rw [hfirst]; exact hchain, hsp, hdm, Or.inl hnext, hn, ?_⟩
    rw [hw2]
    exact hQ4
  · intro p hp
    have hc1 : List.count (PinOp.write p (activeLevel dm)) w1 = 0 := by
      apply List.count_eq_zero_of_not_mem
      intro hmem1
      obtain ⟨i, l, hi, he⟩ := hw1s _ hmem1
      injection he with h1 h2
      rw [h1] at hp
      exact hseg i hi hp
    have hc2 : List.count (PinOp.write p (activeLevel dm)) w2 = 0 := by
      apply List.count_eq_zero_of_not_mem
      intro hmem1
      obtain ⟨i, l, hi, he⟩ := hw2s _ hmem1
      injection he with h1 h2
      rw [h1] at hp
      exact hseg i hi hp
    have hc3 : List.count (PinOp.write p (activeLevel dm))
        [PinOp.write (pins.getD c 0) (inactiveLevel dm)] = 0 := by
      apply List.count_eq_zero_of_not_mem
      intro hmem1
      rw [List.mem_singleton] at hmem1
      injection hmem1 with h1 h2
      exact hne h2
    have hc4 : List.count (PinOp.write p (activeLevel dm))
        [PinOp.write (pins.getD (nextIdx pins.length c) 0) (activeLevel dm)] =
        if pins.getD (nextIdx pins.length c) 0 = p then 1 else 0 := by
      by_cases hp2 : pins.getD (nextIdx pins.length c) 0 = p
      · rw [if_pos hp2, hp2]
        simp
      · rw [if_neg hp2]
        apply List.count_eq_zero_of_not_mem
        intro hmem1
        rw [List.mem_singleton] at hmem1
        injection hmem1 with h1 h2
        exact hp2 h1.symm
    rw [List.count_append, List.count_append, List.count_append, hc1, hc2, hc3, hc4]
    simp
  · refine prefixes_append (fun l => enabledCount dm s._first l ≤ 1) _ _ _ ?_ ?_
    · refine prefixes_append (fun l => enabledCount dm s._first l ≤ 1) _ _ _ ?_ ?_
      · refine prefixes_append (fun l => enabledCount dm s._first l ≤ 1) _ _ _ ?_ ?_
        · exact prefixes_seg dm s._first pins segs hchain hseg s.log w1 c hw1s hquiet
        · refine prefixes_single (fun l => enabledCount dm s._first l ≤ 1) _ _ ?_ ?_
          · exact enabledCount_le_one dm s._first pins _ c hchain hQ1
          · exact enabledCount_le_one dm s._first pins _ c hchain
              (fun i hi _ => hQ2 i hi)
      · rw [← List.append_assoc]
        refine prefixes_single (fun l => enabledCount dm s._first l ≤ 1) _ _ ?_ ?_
        · exact enabledCount_le_one dm s._first pins _ c hchain (fun i hi _ => hQ2 i hi)
        · exact enabledCount_le_one dm s._first pins _ _ hchain hQ3
    · rw [← List.append_assoc, ← List.append_assoc]
      exact prefixes_seg dm s._first pins segs hchain hseg _ w2 _ hw2s hQ3

/-! ## Rounds of `refreshNext` -/

theorem nextIdx_eq_mod (n c : Nat) (hc : c < n) : nextIdx n c = (c + 1) % n := by
  unfold nextIdx
  split
  · rw [Nat.mod_eq_of_lt (by assumption)]
  · have : c + 1 = n := by omega
    rw [this, Nat.mod_self]

/-- Pins enabled by `j` consecutive calls from cursor position `c`, in order. -/
theorem refreshNext_rounds (segs pins : List Nat) (dm : SSDisplayMode_e) (hnd : pins.Nodup)
    (hseg : ∀ i, i < 8 → segs.getD i 0 ∉ pins) :
    ∀ (j : Nat) (s : SSDisplay) (c : Nat), CursorInv segs pins dm s c →
      ∃ s' ops, refreshNextTimes j s = some s' ∧ s'.log = s.log ++ ops ∧
        s'._first = s._first ∧ CursorInv segs pins dm s' ((c + j) % pins.length) ∧
        (∀ p ∈ pins, ops.count (PinOp.write p (activeLevel dm)) =
          ((List.range j).map (fun i => pins.getD ((c + 1 + i) % pins.length) 0)).count p) ∧
        (∀ t, t ≤ ops.length → enabledCount dm s._first (s.log ++ ops.take t) ≤ 1) := by
  intro j
  induction j with
  | zero =>
    intro s c hI
    refine ⟨s, [], rfl, by simp, rfl, ?_, ?_, ?_⟩
    · rw [Nat.add_zero, Nat.mod_eq_of_lt hI.bound]
      exact hI
    · intro p _
      simp
    · intro t _
      simp only [List.take_nil, List.append_nil]
      exact enabledCount_le_one dm s._first pins s.log c hI.chain hI.quiet
  | succ j ih =>
    intro s c hI
    obtain ⟨s1, ops1, h1, hlog1, hfirst1, hI1, hcount1, hpre1⟩ :=
      refreshNext_step segs pins dm s c hI hnd hseg
    rw [nextIdx_eq_mod _ _ hI.bound] at hI1 hcount1
    obtain ⟨s2, ops2, h2, hlog2, hfirst2, hI2, hcount2, hpre2⟩ := ih s1 _ hI1
    refine ⟨s2, ops1 ++ ops2, ?_, ?_, ?_, ?_, ?_, ?_⟩
    · simp [refreshNextTimes, h1, h2]
    · rw [hlog2, hlog1, List.append_assoc]
    · rw [hfirst2, hfirst1]
    · have : ((c + 1) % pins.length + j) % pins.length = (c + (j + 1)) % pins.length := by
        rw [Nat.mod_add_mod]
        congr 1
        omega
      rw [← this]
      exact hI2
    · intro p hp
      rw [List.count_append, hcount1 p hp, hcount2 p hp, List.range_succ_eq_map,
        List.map_cons, List.map_map, List.count_cons]
      have hfun : (fun i => pins.getD (((c + 1) % pins.length + 1 + i) % pins.length) 0) =
          ((fun i => pins.getD ((c + 1 + i) % pins.length) 0) ∘ Nat.succ) := by
        funext i
        simp only [Function.comp, Nat.succ_eq_add_one]
        congr 1
        rw [Nat.add_assoc, Nat.mod_add_mod]
        congr 1
        omega
      rw [hfun]
      simp only [Nat.add_zero, beq_iff_eq]
      omega
    · refine prefixes_append (fun l => enabledCount dm s._first l ≤ 1) _ _ _ hpre1 ?_
      rw [← hlog1, ← hfirst1]
      exact hpre2

/-- Over a full round every pin is the target of exactly one call. -/
theorem round_count (pins : List Nat) (hnd : pins.Nodup) (c : Nat) (p : Nat) (hp : p ∈ pins) :
    ((List.range pins.length).map
      (fun i => pins.getD ((c + 1 + i) % pins.length) 0)).count p = 1 := by
  have hN : 0 < pins.length := List.length_pos_of_mem hp
  have hidx : ((List.range pins.length).map (fun i => (c + 1 + i) % pins.length)).Perm
      (List.range pins.length) := by
    apply List.Subperm.perm_of_length_le
    · apply List.Nodup.subperm
      · apply List.Nodup.map_on _ (List.nodup_range _)
        intro x hx y hy hxy
        rw [List.mem_range] at hx hy
        have h1 : x ≡ y [MOD pins.length] := Nat.ModEq.add_left_cancel' (c + 1) hxy
        have h2 : x % pins.length = y % pins.length := h1
        rwa [Nat.mod_eq_of_lt hx, Nat.mod_eq_of_lt hy] at h2
      · intro x hx
        rw [List.mem_map] at hx
        obtain ⟨i, _, rfl⟩ := hx
        exact List.mem_range.mpr (Nat.mod_lt _ hN)
    · simp
  have hpins : (List.range pins.length).map (fun i => pins.getD i 0) = pins := by
    apply List.ext_getElem
    · simp
    · intro i h1 h2
      simp [List.getElem?_eq_getElem h2]
  have hmap : (List.range pins.length).map
      (fun i => pins.getD ((c + 1 + i) % pins.length) 0) =
      ((List.range pins.length).map (fun i => (c + 1 + i) % pins.length)).map
        (fun i => pins.getD i 0) := by
    rw [List.map_map]
    rfl
  rw [hmap, (hidx.map _).count_eq, hpins]
  exact List.count_eq_one_of_mem hnd hp

/-- The display built by the constructor and `addDigits` satisfies the cursor invariant
with the cursor still `NULL`. -/
theorem addDigits_cursorInv (a b c d e f g h : Nat) (sm dm : SSDisplayMode_e)
    (pins : List Nat) (hN : 1 ≤ pins.length) :
    CursorInv [a, b, c, d, e, f, g, h] pins dm
      (addDigits (SSDisplay.new a b c d e f g h sm dm) pins) 0 := by
  obtain ⟨h1, h2, h3, h4, h5⟩ := addDigits_inv [a, b, c, d, e, f, g, h] dm pins
    (SSDisplay.new a b c d e f g h sm dm) rfl rfl rfl (by simp [SSDisplay.new])
  have hnil : (SSDisplay.new a b c d e f g h sm dm)._first = [] := rfl
  simp only [hnil, List.map_nil, List.nil_append] at h1 h5
  refine ⟨h1, h2, h3, Or.inr ⟨h4, rfl⟩, by omega, ?_⟩
  intro i hi _
  apply h5
  rw [List.getD_eq_getElem _ _ hi]
  exact List.getElem_mem _

/-- C10: on a display built by `N >= 1` `addDigit` calls with pairwise distinct common pins,
distinct from the segment pins, and after any number `m` of `refreshNext` calls, `N` further
consecutive `refreshNext` calls all return, write the active level to each digit's common pin
exactly once, and after every individual pin write of those calls at most one digit's common
line is at the active level. -/
theorem refreshNext_full_round (a b c d e f g h : Nat) (sm dm : SSDisplayMode_e)
    (pins : List Nat) (m : Nat) (hN : 1 ≤ pins.length) (hnd : pins.Nodup)
    (hseg : ∀ p ∈ pins, p ∉ [a, b, c, d, e, f, g, h]) :
    ∃ s1 s2 ops,
      refreshNextTimes m (addDigits (SSDisplay.new a b c d e f g h sm dm) pins) = some s1 ∧
      refreshNextTimes pins.length s1 = some s2 ∧
      s1._first.map (fun d => d.pin) = pins ∧ s2._first = s1._first ∧
      s2.log = s1.log ++ ops ∧
      (∀ p ∈ pins, ops.count (PinOp.write p (activeLevel dm)) = 1) ∧
      (∀ t, t ≤ ops.length → enabledCount dm s1._first (s1.log ++ ops.take t) ≤ 1) := by
  have hsegs : ∀ i, i < 8 → [a, b, c, d, e, f, g, h].getD i 0 ∉ pins := by
    intro i hi hmem
    apply hseg _ hmem
    interval_cases i <;> simp
  have h0 := addDigits_cursorInv a b c d e f g h sm dm pins hN
  obtain ⟨s1, ops1, hr1, -, -, hI1, -, -⟩ :=
    refreshNext_rounds [a, b, c, d, e, f, g, h] pins dm hnd hsegs m _ 0 h0
  obtain ⟨s2, ops, hr2, hlog, hfirst, -, hcount, hpre⟩ :=
    refreshNext_rounds [a, b, c, d, e, f, g, h] pins dm hnd hsegs pins.length s1 _ hI1
  refine ⟨s1, s2, ops, hr1, hr2, hI1.chain, hfirst, hlog, ?_, hpre⟩
  intro p hp
  rw [hcount p hp]
  exact round_count pins hnd _ p hp

/-- Instance of C10: four digits on pins 10..13, segments on pins 2..9, after three earlier
calls. -/
theorem refreshNext_full_round_witness :
    ∃ s1 s2 ops,
      refreshNextTimes 3 (addDigits (SSDisplay.new 2 3 4 5 6 7 8 9 SSDisplayMode_e.NEGATIVE
        SSDisplayMode_e.NEGATIVE) [10, 11, 12, 13]) = some s1 ∧
      refreshNextTimes [10, 11, 12, 13].length s1 = some s2 ∧
      s1._first.map (fun d => d.pin) = [10, 11, 12, 13] ∧ s2._first = s1._first ∧
      s2.log = s1.log ++ ops ∧
      (∀ p ∈ [10, 11, 12, 13],
        ops.count (PinOp.write p (activeLevel SSDisplayMode_e.NEGATIVE)) = 1) ∧
      (∀ t, t ≤ ops.length →
        enabledCount SSDisplayMode_e.NEGATIVE s1._first (s1.log ++ ops.take t) ≤ 1) :=
  refreshNext_full_round 2 3 4 5 6 7 8 9 SSDisplayMode_e.NEGATIVE SSDisplayMode_e.NEGATIVE
    [10, 11, 12, 13] 3 (by decide) (by decide) (by decide)

/-! ## Operating on an empty chain -/

/-- C13: on a display without digits `refreshAll` and `refreshNext` are no-ops: both return,
neither performs a pin write, and the whole display state (chain, cursor, segment buffer,
digit count, log of pin operations) is unchanged. -/
theorem refresh_empty_noop (s : SSDisplay) (hempty : s._first = []) :
    refreshAll s = s ∧ refreshNext s = some s ∧
    (refreshAll s).log = s.log ∧ (∀ s', refreshNext s = some s' → s'.log = s.log) := by
  have h1 : refreshAll s = s := by
    unfold refreshAll
    rw [hempty]
  have h2 : refreshNext s = some s := by
    unfold refreshNext
    rw [hempty]
  refine ⟨h1, h2, by rw [h1], ?_⟩
  intro s' hs'
  rw [h2] at hs'
  injection hs' with hs'
  rw [hs']

/-- Instance of C13: a newly constructed display. -/
theorem refresh_empty_noop_witness :
    refreshAll (SSDisplay.new 2 3 4 5 6 7 8 9 SSDisplayMode_e.NEGATIVE SSDisplayMode_e.NEGATIVE)
      = SSDisplay.new 2 3 4 5 6 7 8 9 SSDisplayMode_e.NEGATIVE SSDisplayMode_e.NEGATIVE ∧
    refreshNext (SSDisplay.new 2 3 4 5 6 7 8 9 SSDisplayMode_e.NEGATIVE SSDisplayMode_e.NEGATIVE)
      = some (SSDisplay.new 2 3 4 5 6 7 8 9 SSDisplayMode_e.NEGATIVE
        SSDisplayMode_e.NEGATIVE) ∧
    (refreshAll (SSDisplay.new 2 3 4 5 6 7 8 9 SSDisplayMode_e.NEGATIVE
      SSDisplayMode_e.NEGATIVE)).log =
      (SSDisplay.new 2 3 4 5 6 7 8 9 SSDisplayMode_e.NEGATIVE SSDisplayMode_e.NEGATIVE).log ∧
    (∀ s', refreshNext (SSDisplay.new 2 3 4 5 6 7 8 9 SSDisplayMode_e.NEGATIVE
        SSDisplayMode_e.NEGATIVE) = some s' →
      s'.log = (SSDisplay.new 2 3 4 5 6 7 8 9 SSDisplayMode_e.NEGATIVE
        SSDisplayMode_e.NEGATIVE).log) :=
  refresh_empty_noop _ rfl

/-- C14, evaluation on a display without digits: `printDecInt` and `printHexInt` have no
guard on `_first`; the first statement of their `do ... while` body goes through the null
pointer `selected`, so neither call completes, for any number and any construction. -/
theorem print_empty_faults (a b c d e f g h : Nat) (sm dm : SSDisplayMode_e) (number : Int)
    (unumber : Nat) :
    (SSDisplay.new a b c d e f g h sm dm)._first = [] ∧
    printDecInt (SSDisplay.new a b c d e f g h sm dm) number = none ∧
    printHexInt (SSDisplay.new a b c d e f g h sm dm) unumber = none ∧
    refreshAll (SSDisplay.new a b c d e f g h sm dm) = SSDisplay.new a b c d e f g h sm dm :=
  ⟨rfl, rfl, rfl, rfl⟩

/-! ## Frame of `addDigit` -/

/-- C15: `addDigit(p)` only grows the chain: the chain gets one more entry, the entries it
had keep their pin, content and dot flag in the same order, the new last entry has pin `p`,
content blank and dot off, the digit count grows by one (so it stays the chain length), and
the refresh cursor designates the same digit as before. -/
theorem addDigit_frame (s : SSDisplay) (p : Nat) :
    (addDigit s p)._first = s._first ++ [{ content := 32, dot := false, pin := p }] ∧
    (addDigit s p)._first.length = s._first.length + 1 ∧
    (∀ (k : Nat) d, s._first[k]? = some d → (addDigit s p)._first[k]? = some d) ∧
    (addDigit s p)._first[s._first.length]? = some { content := 32, dot := false, pin := p } ∧
    (addDigit s p)._digits = s._digits + 1 ∧
    (s._digits = s._first.length → (addDigit s p)._digits = (addDigit s p)._first.length) ∧
    (addDigit s p)._next = s._next := by
  have h : (addDigit s p)._first = s._first ++ [{ content := 32, dot := false, pin := p }] := by
    rw [addDigit_eq]
  have hd : (addDigit s p)._digits = s._digits + 1 := by
    rw [addDigit_eq]
  have hn : (addDigit s p)._next = s._next := by
    rw [addDigit_eq]
  refine ⟨h, by rw [h]; simp, ?_, ?_, hd, ?_, hn⟩
  · intro k d hk
    rw [h]
    have hlt : k < s._first.length := by
      by_contra hc
      rw [List.getElem?_eq_none (by omega)] at hk
      exact Option.noConfusion hk
    rw [List.getElem?_append_left hlt]
    exact hk
  · rw [h]
    simp
  · intro hc
    rw [hd, h, hc]
    simp

/-- Instance of C15: a fifth digit appended after `printDecInt(1234)` on four digits. -/
theorem addDigit_frame_witness :
    ((addDigit demo4 14)._first = demo4._first ++ [{ content := 32, dot := false, pin := 14 }] ∧
    (addDigit demo4 14)._first.length = demo4._first.length + 1 ∧
    (∀ (k : Nat) d, demo4._first[k]? = some d → (addDigit demo4 14)._first[k]? = some d) ∧
    (addDigit demo4 14)._first[demo4._first.length]? =
      some { content := 32, dot := false, pin := 14 } ∧
    (addDigit demo4 14)._digits = demo4._digits + 1 ∧
    (demo4._digits = demo4._first.length →
      (addDigit demo4 14)._digits = (addDigit demo4 14)._first.length) ∧
    (addDigit demo4 14)._next = demo4._next) ∧
    (printDecInt demo4 1234).map (fun s => contents (addDigit s 14)) =
      some [52, 51, 50, 49, 32] ∧
    (printDecInt demo4 1234).map (fun s => dots (addDigit s 14)) =
      some [true, false, false, false, false] :=
  ⟨addDigit_frame demo4 14, by decide, by decide⟩

/-! ## The font of the encoder -/

/-- The folded code of an undocumented character is in no off set of the encoder. -/
theorem folded_undocumented (c : Nat) (h : ¬ Documented c) :
    ¬ ((48 ≤ (if 97 ≤ c ∧ c ≤ 122 then c - 97 + 65 else c) ∧
        (if 97 ≤ c ∧ c ≤ 122 then c - 97 + 65 else c) ≤ 57) ∨
      (65 ≤ (if 97 ≤ c ∧ c ≤ 122 then c - 97 + 65 else c) ∧
        (if 97 ≤ c ∧ c ≤ 122 then c - 97 + 65 else c) ≤ 70) ∨
      (if 97 ≤ c ∧ c ≤ 122 then c - 97 + 65 else c) = 32 ∨
      (if 97 ≤ c ∧ c ≤ 122 then c - 97 + 65 else c) = 45) := by
  unfold Documented at h
  split_ifs <;> omega

/-- C18: for every character code outside the documented set (`'g'..'z'` included, which
are folded to `'G'..'Z'`), every dot flag and every display state (so either polarity),
`updateCurrent` turns off none of the segments A..G: all seven are at the on level and the
pattern is that of `'8'` with the same dot flag. -/
theorem updateCurrent_undocumented (s : SSDisplay) (c : Nat) (dot : Bool)
    (hc : ¬ Documented c) :
    (updateCurrent s c dot)._seg_cont.take 7 = List.replicate 7 s._on ∧
    (updateCurrent s c dot)._seg_cont = (updateCurrent s 56 dot)._seg_cont := by
  have hk := folded_undocumented c hc
  rw [updateCurrent_seg_cont, updateCurrent_seg_cont]
  generalize (if 97 ≤ c ∧ c ≤ 122 then c - 97 + 65 else c) = k at hk
  have hA : k ∉ [49, 52, 66, 68, 32, 45] := by
    simp only [List.mem_cons, List.mem_singleton, List.not_mem_nil, or_false]
    omega
  have hB : k ∉ [53, 54, 66, 67, 69, 70, 32, 45] := by
    simp only [List.mem_cons, List.mem_singleton, List.not_mem_nil, or_false]
    omega
  have hC : k ∉ [50, 67, 69, 70, 32, 45] := by
    simp only [List.mem_cons, List.mem_singleton, List.not_mem_nil, or_false]
    omega
  have hD : k ∉ [49, 52, 55, 65, 70, 32, 45] := by
    simp only [List.mem_cons, List.mem_singleton, List.not_mem_nil, or_false]
    omega
  have hE : k ∉ [49, 51, 52, 53, 55, 57, 32, 45] := by
    simp only [List.mem_cons, List.mem_singleton, List.not_mem_nil, or_false]
    omega
  have hF : k ∉ [49, 50, 51, 55, 68, 32, 45] := by
    simp only [List.mem_cons, List.mem_singleton, List.not_mem_nil, or_false]
    omega
  have hG : k ∉ [48, 49, 55, 67, 32] := by
    simp only [List.mem_cons, List.mem_singleton, List.not_mem_nil, or_false]
    omega
  rw [if_neg hA, if_neg hB, if_neg hC, if_neg hD, if_neg hE, if_neg hF, if_neg hG]
  constructor
  · rfl
  · simp

/-- Instance of C18: `'z'` with the dot off on the four digit display. -/
theorem updateCurrent_undocumented_witness :
    (updateCurrent demo4 122 false)._seg_cont.take 7 = List.replicate 7 demo4._on ∧
    (updateCurrent demo4 122 false)._seg_cont = (updateCurrent demo4 56 false)._seg_cont :=
  updateCurrent_undocumented demo4 122 false (by unfold Documented; omega)

/-- A lower-case hex letter is encoded as its upper-case letter. -/
theorem updateCurrent_fold (s : SSDisplay) (c : Nat) (dot : Bool) (hlo : 65 ≤ c)
    (hhi : c ≤ 70) : updateCurrent s (c + 32) dot = updateCurrent s c dot := by
  have h1 : (if 97 ≤ c + 32 ∧ c + 32 ≤ 122 then c + 32 - 97 + 65 else c + 32) = c := by
    rw [if_pos (by omega)]
    omega
  have h2 : (if 97 ≤ c ∧ c ≤ 122 then c - 97 + 65 else c) = c := by
    rw [if_neg (by omega)]
  unfold updateCurrent
  simp only [h1, h2]

/-- C20: the seven off sets of `updateCurrent` implement the standard seven-segment
hexadecimal font: for every symbol of the table, every dot flag and either segment polarity,
segments A..G are at the on level exactly where the font lights them and at the off level
elsewhere, the on level being `HIGH` for segment mode `POSITIVE` and `LOW` for `NEGATIVE`;
the lower-case letters `'a'..'f'` get the pattern of their upper-case letter. -/
theorem updateCurrent_font (s : SSDisplay) (m : SSDisplayMode_e) (hpol : SegmentPolarity s m)
    (c : Nat) (hc : c ∈ fontSymbols) (dot : Bool) :
    (updateCurrent s c dot)._seg_cont.take 7 =
      (standardFont c).map (fun lit => if lit = true then s._on else s._off) ∧
    s._on = (if m = SSDisplayMode_e.POSITIVE then Level.HIGH else Level.LOW) ∧
    s._off = (if m = SSDisplayMode_e.POSITIVE then Level.LOW else Level.HIGH) ∧
    s._on ≠ s._off ∧
    (65 ≤ c ∧ c ≤ 70 →
      (updateCurrent s (c + 32) dot)._seg_cont = (updateCurrent s c dot)._seg_cont) := by
  refine ⟨?_, hpol.1, hpol.2, hpol.on_ne_off, ?_⟩
  · simp only [fontSymbols, List.mem_cons, List.mem_singleton, List.not_mem_nil,
      or_false] at hc
    rw [updateCurrent_seg_cont]
    rcases hc with h | h | h | h | h | h | h | h | h | h | h | h | h | h | h | h | h | h <;>
      subst h <;> simp [standardFont]
  · intro hr
    rw [updateCurrent_fold s c dot hr.1 hr.2]

/-- Instance of C20: `'E'` on the four digit display (segment mode `NEGATIVE`). -/
theorem updateCurrent_font_witness :
    (updateCurrent demo4 69 false)._seg_cont.take 7 =
      (standardFont 69).map (fun lit => if lit = true then demo4._on else demo4._off) ∧
    demo4._on = (if SSDisplayMode_e.NEGATIVE = SSDisplayMode_e.POSITIVE then Level.HIGH
      else Level.LOW) ∧
    demo4._off = (if SSDisplayMode_e.NEGATIVE = SSDisplayMode_e.POSITIVE then Level.LOW
      else Level.HIGH) ∧
    demo4._on ≠ demo4._off ∧
    (65 ≤ 69 ∧ 69 ≤ 70 →
      (updateCurrent demo4 (69 + 32) false)._seg_cont =
        (updateCurrent demo4 69 false)._seg_cont) :=
  updateCurrent_font demo4 SSDisplayMode_e.NEGATIVE ⟨by decide, by decide⟩ 69 (by decide) false

/-! ## The overflow threshold -/

/-- C19, evaluation at ten digits: the ten multiplications by 10 wrap in the 32 bit
`long int` accumulator, the threshold is 1410065407 instead of `10^10 - 1`, and
`printDecInt(2000000000)`, which fits ten digits, is rendered as the overflow pattern. -/
theorem decThreshold_ten_digits :
    decThreshold 10 = 1410065407 ∧ decThreshold 10 ≠ 10 ^ 10 - 1 ∧
    demo10._digits = 10 ∧ demo10._first.length = 10 ∧
    (printDecInt demo10 2000000000).map contents =
      some [32, 32, 32, 32, 32, 32, 32, 32, 32, 32] ∧
    (printDecInt demo10 2000000000).map dots =
      some [true, true, true, false, false, false, false, false, false, false] := by
  refine ⟨by decide, by decide, by decide, by decide, by decide, by decide⟩

/-! ## The pin writes of the refresh methods -/

/-- The log of `updateCurrent` in terms of `segWrites` and `encoding`. -/
theorem updateCurrent_log_writes (s : SSDisplay) (c : Nat) (dot : Bool) :
    (updateCurrent s c dot).log = s.log ++ segWrites s (encoding s c dot) := rfl

/-- The encoding depends on the display only through its on and off levels. -/
theorem encoding_congr (s1 s2 : SSDisplay) (hon : s1._on = s2._on) (hoff : s1._off = s2._off)
    (c : Nat) (dot : Bool) : encoding s1 c dot = encoding s2 c dot := by
  unfold encoding
  rw [updateCurrent_seg_cont, updateCurrent_seg_cont, hon, hoff]

/-- The segment writes depend on the display only through its segment pins. -/
theorem segWrites_congr (s1 s2 : SSDisplay) (h : s1._seg_pins = s2._seg_pins)
    (levels : List Level) : segWrites s1 levels = segWrites s2 levels := by
  unfold segWrites
  rw [h]

/-- The encoding of the blank without dot is the blank pattern. -/
theorem encoding_blank (s : SSDisplay) : encoding s 32 false = blankPattern s := by
  unfold encoding blankPattern
  rw [updateCurrent_seg_cont]
  simp [List.replicate]

@[simp] theorem updateCurrent_on (s : SSDisplay) (c : Nat) (dot : Bool) :
    (updateCurrent s c dot)._on = s._on := rfl

@[simp] theorem updateCurrent_off (s : SSDisplay) (c : Nat) (dot : Bool) :
    (updateCurrent s c dot)._off = s._off := rfl

/-- The pin writes, chain and cursor after one `refreshNext` call on a non-empty chain. -/
theorem refreshNext_trace (s : SSDisplay) (c : Nat) (dc dn : SSDisplay_digit_s)
    (hcur : s._next = some c ∨ (s._next = none ∧ c = 0))
    (hdc : s._first[c]? = some dc)
    (hdn : s._first[nextIdx s._first.length c]? = some dn) :
    ∃ s', refreshNext s = some s' ∧
      s'.log = s.log ++ segWrites s (blankPattern s) ++
        [PinOp.write dc.pin (inactiveLevel s._digitMode)] ++
        [PinOp.write dn.pin (activeLevel s._digitMode)] ++
        segWrites s (encoding s dn.content dn.dot) ∧
      blankPattern s = [s._off, s._off, s._off, s._off, s._off, s._off, s._off, s._off] ∧
      activeLevel s._digitMode =
        (if s._digitMode = SSDisplayMode_e.POSITIVE then Level.HIGH else Level.LOW) ∧
      inactiveLevel s._digitMode =
        (if s._digitMode = SSDisplayMode_e.POSITIVE then Level.LOW else Level.HIGH) ∧
      s'._first = s._first ∧ s'._next = some (nextIdx s._first.length c) := by
  refine ⟨_, refreshNext_eq s c dc dn hcur hdc hdn, ?_, rfl, rfl, rfl, rfl, rfl⟩
  rw [updateCurrent_log_writes]
  have he : encoding (digitalWrite
      { digitalWrite (blankCurrent { s with _next := some c }) dc.pin
          (inactiveLevel s._digitMode) with _next := some (nextIdx s._first.length c) }
      dn.pin (activeLevel s._digitMode)) dn.content dn.dot = encoding s dn.content dn.dot :=
    encoding_congr _ _ rfl rfl _ _
  have hb : (blankCurrent { s with _next := some c }).log =
      s.log ++ segWrites s (blankPattern s) := by
    unfold blankCurrent
    rw [updateCurrent_log_writes, ← encoding_blank s]
    rfl
  rw [he]
  simp only [digitalWrite, hb]
  rfl

/-- C16: blank and deselect before select.  On a non-empty chain whose cursor designates
the digit `dc` (the first digit while the cursor is still `NULL`), with `dn` the digit after
it in round-robin order, one `refreshNext` call returns and its pin writes are, in this
order: the eight segment lines at the off level, the inactive digit level on the common pin
of `dc`, the active digit level on the common pin of `dn`, the eight segment lines with the
encoding of the content and dot flag of `dn`; the active digit level is `HIGH` for digit
mode `POSITIVE` and `LOW` for `NEGATIVE`; no digit record is modified. -/
theorem refreshNext_writes (s : SSDisplay) (c : Nat) (dc dn : SSDisplay_digit_s)
    (hcur : s._next = some c ∨ (s._next = none ∧ c = 0))
    (hdc : s._first[c]? = some dc)
    (hdn : s._first[nextIdx s._first.length c]? = some dn) :
    ∃ s', refreshNext s = some s' ∧
      s'.log = s.log ++ segWrites s (blankPattern s) ++
        [PinOp.write dc.pin (inactiveLevel s._digitMode)] ++
        [PinOp.write dn.pin (activeLevel s._digitMode)] ++
        segWrites s (encoding s dn.content dn.dot) ∧
      blankPattern s = [s._off, s._off, s._off, s._off, s._off, s._off, s._off, s._off] ∧
      activeLevel s._digitMode =
        (if s._digitMode = SSDisplayMode_e.POSITIVE then Level.HIGH else Level.LOW) ∧
      inactiveLevel s._digitMode =
        (if s._digitMode = SSDisplayMode_e.POSITIVE then Level.LOW else Level.HIGH) ∧
      s'._first = s._first ∧ s'._next = some (nextIdx s._first.length c) :=
  refreshNext_trace s c dc dn hcur hdc hdn

/-- Instance of C16: the first call on the two digit display. -/
theorem refreshNext_writes_witness :
    ∃ s', refreshNext demo2 = some s' ∧
      s'.log = demo2.log ++ segWrites demo2 (blankPattern demo2) ++
        [PinOp.write ({ content := 32, dot := false, pin := 10 } : SSDisplay_digit_s).pin
          (inactiveLevel demo2._digitMode)] ++
        [PinOp.write ({ content := 32, dot := false, pin := 11 } : SSDisplay_digit_s).pin
          (activeLevel demo2._digitMode)] ++
        segWrites demo2 (encoding demo2
          ({ content := 32, dot := false, pin := 11 } : SSDisplay_digit_s).content
          ({ content := 32, dot := false, pin := 11 } : SSDisplay_digit_s).dot) ∧
      blankPattern demo2 = [demo2._off, demo2._off, demo2._off, demo2._off, demo2._off,
        demo2._off, demo2._off, demo2._off] ∧
      activeLevel demo2._digitMode =
        (if demo2._digitMode = SSDisplayMode_e.POSITIVE then Level.HIGH else Level.LOW) ∧
      inactiveLevel demo2._digitMode =
        (if demo2._digitMode = SSDisplayMode_e.POSITIVE then Level.LOW else Level.HIGH) ∧
      s'._first = demo2._first ∧ s'._next = some (nextIdx demo2._first.length 0) :=
  refreshNext_writes demo2 0 { content := 32, dot := false, pin := 10 }
    { content := 32, dot := false, pin := 11 } (Or.inr ⟨by decide, rfl⟩) (by decide) (by decide)

/-- C12 as stated fails: on the two digit display, on which `refreshNext` was never called,
the first call enables and renders the second-appended digit (pin 11), not the first (pin
10), and leaves the cursor on the second digit. -/
theorem refreshNext_first_call_counterexample :
    demo2._next = none ∧ demo2._first.map (fun d => d.pin) = [10, 11] ∧
    activeLevel demo2._digitMode = Level.LOW ∧
    (refreshNext demo2).map (fun s => s._next) = some (some 1) ∧
    (refreshNext demo2).map (fun s => s.log.drop demo2.log.length) =
      some [PinOp.write 2 Level.HIGH, PinOp.write 3 Level.HIGH, PinOp.write 4 Level.HIGH,
        PinOp.write 5 Level.HIGH, PinOp.write 6 Level.HIGH, PinOp.write 7 Level.HIGH,
        PinOp.write 8 Level.HIGH, PinOp.write 9 Level.HIGH,
        PinOp.write 10 Level.HIGH, PinOp.write 11 Level.LOW,
        PinOp.write 2 Level.HIGH, PinOp.write 3 Level.HIGH, PinOp.write 4 Level.HIGH,
        PinOp.write 5 Level.HIGH, PinOp.write 6 Level.HIGH, PinOp.write 7 Level.HIGH,
        PinOp.write 8 Level.HIGH, PinOp.write 9 Level.HIGH] := by
  refine ⟨by decide, by decide, by decide, by decide, by decide⟩

/-- C12 (amended): the refresh cursor is a round robin over the chain in which the first
digit counts as the previously selected one while the cursor is still `NULL`.  On a chain of
`N >= 1` digits whose cursor designates position `c`, one `refreshNext` call returns, moves
the cursor to the position after `c` (position 0 after the last one), enables the common
line of the digit there and renders its content and dot flag.  On a display on which
`refreshNext` was never called this is the second-appended digit when `N >= 2`. -/
theorem refreshNext_round_robin (s : SSDisplay) (c : Nat) (hN : 1 ≤ s._first.length)
    (hcur : (s._next = some c ∧ c < s._first.length) ∨ (s._next = none ∧ c = 0)) :
    ∃ s' dn w, refreshNext s = some s' ∧
      s._first[nextIdx s._first.length c]? = some dn ∧
      s'._next = some (nextIdx s._first.length c) ∧ s'._first = s._first ∧
      s'.log = s.log ++ w ++ [PinOp.write dn.pin (activeLevel s._digitMode)] ++
        segWrites s (encoding s dn.content dn.dot) ∧
      nextIdx s._first.length c = (if c + 1 < s._first.length then c + 1 else 0) ∧
      (s._next = none → 2 ≤ s._first.length → nextIdx s._first.length c = 1) := by
  have hc : c < s._first.length := by
    rcases hcur with h | h
    · exact h.2
    · omega
  have hn := nextIdx_lt s._first.length c (by omega)
  have hcur2 : s._next = some c ∨ (s._next = none ∧ c = 0) := by
    rcases hcur with h | h
    · exact Or.inl h.1
    · exact Or.inr h
  obtain ⟨s', h1, h2, -, -, -, h3, h4⟩ := refreshNext_trace s c s._first[c]
    s._first[nextIdx s._first.length c] hcur2 (List.getElem?_eq_getElem hc)
    (List.getElem?_eq_getElem hn)
  refine ⟨s', _, segWrites s (blankPattern s) ++
    [PinOp.write s._first[c].pin (inactiveLevel s._digitMode)], h1,
    List.getElem?_eq_getElem hn, h4, h3, ?_, rfl, ?_⟩
  · rw [h2]
    simp only [List.append_assoc]
  intro hnone h2le
  rcases hcur with h | h
  · rw [h.1] at hnone
    exact Option.noConfusion hnone
  · rw [h.2]
    simp [nextIdx]
    omega

/-- Instance of amended C12: the first call on the two digit display. -/
theorem refreshNext_round_robin_witness :
    ∃ s' dn w, refreshNext demo2 = some s' ∧
      demo2._first[nextIdx demo2._first.length 0]? = some dn ∧
      s'._next = some (nextIdx demo2._first.length 0) ∧ s'._first = demo2._first ∧
      s'.log = demo2.log ++ w ++ [PinOp.write dn.pin (activeLevel demo2._digitMode)] ++
        segWrites demo2 (encoding demo2 dn.content dn.dot) ∧
      nextIdx demo2._first.length 0 = (if 0 + 1 < demo2._first.length then 0 + 1 else 0) ∧
      (demo2._next = none → 2 ≤ demo2._first.length → nextIdx demo2._first.length 0 = 1) :=
  refreshNext_round_robin demo2 0 (by decide) (Or.inr ⟨by decide, rfl⟩)

@[simp] theorem digitalWrite_digitMode (s : SSDisplay) (p : Nat) (l : Level) :
    (digitalWrite s p l)._digitMode = s._digitMode := rfl

/-- One iteration of the loop of `refreshAll`. -/
theorem refreshAllLoop_cons (s : SSDisplay) (d : SSDisplay_digit_s)
    (rest : List SSDisplay_digit_s) :
    refreshAllLoop s (d :: rest) =
      refreshAllLoop
        (digitalWrite
          (blankCurrent (updateCurrent (digitalWrite s d.pin (activeLevel s._digitMode))
            d.content d.dot))
          d.pin (inactiveLevel s._digitMode)) rest := by
  cases hm : s._digitMode <;>
    simp [refreshAllLoop, blankCurrent, activeLevel, inactiveLevel, hm]

/-- The loop of `refreshAll` over a list of digits: its pin writes, and what it keeps. -/
theorem refreshAllLoop_trace (s0 : SSDisplay) (l : List SSDisplay_digit_s) :
    ∀ s : SSDisplay, s._seg_pins = s0._seg_pins → s._on = s0._on → s._off = s0._off →
      s._digitMode = s0._digitMode →
      (refreshAllLoop s l).log = s.log ++ l.flatMap (sweepWrites s0) ∧
      (refreshAllLoop s l)._first = s._first ∧ (refreshAllLoop s l)._next = s._next ∧
      (refreshAllLoop s l)._digits = s._digits ∧
      (refreshAllLoop s l)._seg_pins = s0._seg_pins ∧ (refreshAllLoop s l)._on = s0._on ∧
      (refreshAllLoop s l)._off = s0._off ∧ (refreshAllLoop s l)._digitMode = s0._digitMode ∧
      (l ≠ [] → (refreshAllLoop s l)._seg_cont = blankPattern s0) := by
  induction l with
  | nil =>
    intro s h1 h2 h3 h4
    simp [refreshAllLoop, h1, h2, h3, h4]
  | cons d rest ih =>
    intro s h1 h2 h3 h4
    rw [refreshAllLoop_cons]
    obtain ⟨g1, g2, g3, g4, g5, g6, g7, g8, g9⟩ := ih
      (digitalWrite
        (blankCurrent (updateCurrent (digitalWrite s d.pin (activeLevel s._digitMode))
          d.content d.dot))
        d.pin (inactiveLevel s._digitMode)) h1 h2 h3 h4
    refine ⟨?_, g2, g3, g4, g5, g6, g7, g8, ?_⟩
    · rw [g1, List.flatMap_cons]
      have he : encoding (digitalWrite s d.pin (activeLevel s._digitMode)) d.content d.dot =
          encoding s0 d.content d.dot :=
        encoding_congr (digitalWrite s d.pin (activeLevel s._digitMode)) s0 h2 h3 _ _
      have hb : encoding (updateCurrent (digitalWrite s d.pin (activeLevel s._digitMode))
          d.content d.dot) 32 false = blankPattern s0 :=
        (encoding_congr (updateCurrent (digitalWrite s d.pin (activeLevel s._digitMode))
          d.content d.dot) s0 h2 h3 32 false).trans (encoding_blank s0)
      have c1 : segWrites (digitalWrite s d.pin (activeLevel s._digitMode))
          (encoding (digitalWrite s d.pin (activeLevel s._digitMode)) d.content d.dot) =
          segWrites s0 (encoding s0 d.content d.dot) := by
        rw [he]
        exact segWrites_congr (digitalWrite s d.pin (activeLevel s._digitMode)) s0 h1 _
      have c2 : segWrites (updateCurrent (digitalWrite s d.pin (activeLevel s._digitMode))
          d.content d.dot)
          (encoding (updateCurrent (digitalWrite s d.pin (activeLevel s._digitMode))
            d.content d.dot) 32 false) = segWrites s0 (blankPattern s0) := by
        rw [hb]
        exact segWrites_congr (updateCurrent (digitalWrite s d.pin (activeLevel s._digitMode))
          d.content d.dot) s0 h1 _
      have e1 : (digitalWrite
          (blankCurrent (updateCurrent (digitalWrite s d.pin (activeLevel s._digitMode))
            d.content d.dot))
          d.pin (inactiveLevel s._digitMode)).log =
          s.log ++ [PinOp.write d.pin (activeLevel s._digitMode)] ++
            segWrites (digitalWrite s d.pin (activeLevel s._digitMode))
              (encoding (digitalWrite s d.pin (activeLevel s._digitMode)) d.content d.dot) ++
            segWrites (updateCurrent (digitalWrite s d.pin (activeLevel s._digitMode))
              d.content d.dot)
              (encoding (updateCurrent (digitalWrite s d.pin (activeLevel s._digitMode))
                d.content d.dot) 32 false) ++
            [PinOp.write d.pin (inactiveLevel s._digitMode)] := rfl
      have hlog : (digitalWrite
          (blankCurrent (updateCurrent (digitalWrite s d.pin (activeLevel s._digitMode))
            d.content d.dot))
          d.pin (inactiveLevel s._digitMode)).log = s.log ++ sweepWrites s0 d := by
        rw [e1, c1, c2, h4]
        simp only [sweepWrites, List.append_assoc]
      rw [hlog, List.append_assoc]
    · intro _
      by_cases hr : rest = []
      · subst hr
        have hb : encoding (updateCurrent (digitalWrite s d.pin (activeLevel s._digitMode))
            d.content d.dot) 32 false = blankPattern s0 :=
          (encoding_congr (updateCurrent (digitalWrite s d.pin (activeLevel s._digitMode))
            d.content d.dot) s0 h2 h3 32 false).trans (encoding_blank s0)
        simpa [refreshAllLoop, blankCurrent, digitalWrite, encoding] using hb
      · exact g9 hr

/-- C17: on a chain of `n >= 1` digits the pin writes of `refreshAll` are the
concatenation, over the digits in chain order, of: the active digit level on the digit's
common pin, the eight segment lines with the encoding of its stored content and dot flag,
the eight segment lines with the blank pattern, the inactive digit level on its common pin.
Every digit is visited exactly once, the digit records and the `refreshNext` cursor are
unchanged, and the segment buffer ends blank. -/
theorem refreshAll_writes (s : SSDisplay) (hN : 1 ≤ s._first.length) :
    (refreshAll s).log = s.log ++ s._first.flatMap (sweepWrites s) ∧
    (∀ d, sweepWrites s d =
      [PinOp.write d.pin (activeLevel s._digitMode)] ++
        segWrites s (encoding s d.content d.dot) ++
        segWrites s (blankPattern s) ++
        [PinOp.write d.pin (inactiveLevel s._digitMode)]) ∧
    (refreshAll s)._first = s._first ∧ (refreshAll s)._next = s._next ∧
    (refreshAll s)._digits = s._digits ∧
    (refreshAll s)._seg_cont = blankPattern s ∧
    blankPattern s = [s._off, s._off, s._off, s._off, s._off, s._off, s._off, s._off] := by
  have hne : s._first ≠ [] := by
    intro h
    rw [h] at hN
    simp at hN
  have hall : refreshAll s = refreshAllLoop s s._first := by
    unfold refreshAll
    cases hf : s._first with
    | nil => exact absurd hf hne
    | cons d rest => rfl
  obtain ⟨g1, g2, g3, g4, -, -, -, -, g9⟩ := refreshAllLoop_trace s s._first s rfl rfl rfl rfl
  rw [hall]
  exact ⟨g1, fun _ => rfl, g2, g3, g4, g9 hne, rfl⟩

/-- Instance of C17: the two digit display. -/
theorem refreshAll_writes_witness :
    (refreshAll demo2).log = demo2.log ++ demo2._first.flatMap (sweepWrites demo2) ∧
    (∀ d, sweepWrites demo2 d =
      [PinOp.write d.pin (activeLevel demo2._digitMode)] ++
        segWrites demo2 (encoding demo2 d.content d.dot) ++
        segWrites demo2 (blankPattern demo2) ++
        [PinOp.write d.pin (inactiveLevel demo2._digitMode)]) ∧
    (refreshAll demo2)._first = demo2._first ∧ (refreshAll demo2)._next = demo2._next ∧
    (refreshAll demo2)._digits = demo2._digits ∧
    (refreshAll demo2)._seg_cont = blankPattern demo2 ∧
    blankPattern demo2 = [demo2._off, demo2._off, demo2._off, demo2._off, demo2._off,
      demo2._off, demo2._off, demo2._off] :=
  refreshAll_writes demo2 (by decide)

/-! ## At most one common line along a call sequence -/

/-- The number of enabled digits depends on the chain only through its pins. -/
theorem enabledCount_pins (dm : SSDisplayMode_e) (l1 l2 : List SSDisplay_digit_s)
    (log : List PinOp) (h : l1.map (fun d => d.pin) = l2.map (fun d => d.pin)) :
    enabledCount dm l1 log = enabledCount dm l2 log := by
  have key : ∀ l : List SSDisplay_digit_s, enabledCount dm l log =
      (l.map (fun d => d.pin)).countP
        (fun p => decide (pinLevel log p = some (activeLevel dm))) := by
    intro l
    unfold enabledCount
    rw [List.countP_map]
    rfl
  rw [key l1, key l2, h]

/-- The number of enabled digits depends on the log only through the levels of the pins. -/
theorem enabledCount_levels (dm : SSDisplayMode_e) (l : List SSDisplay_digit_s)
    (log1 log2 : List PinOp) (h : ∀ d ∈ l, pinLevel log1 d.pin = pinLevel log2 d.pin) :
    enabledCount dm l log1 = enabledCount dm l log2 := by
  unfold enabledCount
  apply List.countP_congr
  intro d hd
  rw [h d hd]

/-- A property of all prefixes of `log ++ ops` from the prefixes of `log` and the prefixes of
`ops` after `log`. -/
theorem safe_append (P : List PinOp → Prop) (log ops : List PinOp)
    (h1 : ∀ t, t ≤ log.length → P (log.take t))
    (h2 : ∀ t, t ≤ ops.length → P (log ++ ops.take t)) :
    ∀ t, t ≤ (log ++ ops).length → P ((log ++ ops).take t) := by
  have := prefixes_append P [] log ops (by simpa using h1) (by simpa using h2)
  simpa using this

/-- A pin without a write in a log has no level. -/
theorem pinLevel_none (log : List PinOp) (q : Nat) (h : ∀ l, PinOp.write q l ∉ log) :
    pinLevel log q = none := by
  have := pinLevel_append_other [] log q h
  simpa [pinLevel] using this

/-- From a quiet state by value (every pin other than `q` inactive) to a quiet state by
position. -/
theorem quiet_position (pins : List Nat) (hnd : pins.Nodup) (dm : SSDisplayMode_e)
    (log : List PinOp) (q : Nat)
    (h : ∀ p ∈ pins, p ≠ q → pinLevel log p = some (inactiveLevel dm)) :
    ∃ c, ∀ i, i < pins.length → i ≠ c →
      pinLevel log (pins.getD i 0) = some (inactiveLevel dm) := by
  by_cases hq : q ∈ pins
  · obtain ⟨c, hc, hget⟩ := List.getElem_of_mem hq
    refine ⟨c, fun i hi hic => ?_⟩
    apply h
    · rw [List.getD_eq_getElem _ _ hi]
      exact List.getElem_mem _
    · rw [← hget, ← List.getD_eq_getElem _ 0 hc]
      exact pins_ne pins hnd i c hi hc hic
  · refine ⟨0, fun i hi _ => ?_⟩
    have hmem : pins.getD i 0 ∈ pins := by
      rw [List.getD_eq_getElem _ _ hi]
      exact List.getElem_mem _
    apply h _ hmem
    intro he
    rw [he] at hmem
    exact hq hmem

theorem decPosOverflow_pins (l : List SSDisplay_digit_s) (i : Nat) :
    (decPosOverflow i l).map (fun d => d.pin) = l.map (fun d => d.pin) := by
  induction l generalizing i with
  | nil => simp [decPosOverflow]
  | cons d r ih => simp [decPosOverflow, ih]

theorem decPosDigits_pins (l : List SSDisplay_digit_s) (t : Int) (i : Nat) :
    (decPosDigits t i l).map (fun d => d.pin) = l.map (fun d => d.pin) := by
  induction l generalizing t i with
  | nil => simp [decPosDigits]
  | cons d r ih => simp [decPosDigits, ih]

theorem decNegOverflow_pins (n : Nat) (l : List SSDisplay_digit_s) (i : Nat) :
    (decNegOverflow n i l).map (fun d => d.pin) = l.map (fun d => d.pin) := by
  induction l generalizing i with
  | nil => simp [decNegOverflow]
  | cons d r ih => simp [decNegOverflow, ih]

theorem decNegDigits_pins (n : Nat) (l : List SSDisplay_digit_s) (t : Int) (i : Nat) :
    (decNegDigits n t i l).map (fun d => d.pin) = l.map (fun d => d.pin) := by
  induction l generalizing t i with
  | nil => simp [decNegDigits]
  | cons d r ih => simp [decNegDigits, ih]

theorem setFirstDot_pins (l : List SSDisplay_digit_s) :
    (setFirstDot l).map (fun d => d.pin) = l.map (fun d => d.pin) := by
  cases l <;> simp [setFirstDot]

theorem hexDigits_pins (l : List SSDisplay_digit_s) (t i : Nat) :
    (hexDigits t i l).map (fun d => d.pin) = l.map (fun d => d.pin) := by
  induction l generalizing t i with
  | nil => simp [hexDigits]
  | cons d r ih => simp [hexDigits, ih]

/-- On a non-empty chain `printDecInt` returns and only rewrites the content and dot flag of
the digits: pins, cursor, configuration and log are kept. -/
theorem printDecInt_frame (s : SSDisplay) (number : Int) (hne : s._first ≠ []) :
    ∃ l, printDecInt s number = some { s with _first := l } ∧
      l.map (fun d => d.pin) = s._first.map (fun d => d.pin) := by
  by_cases h0 : 0 ≤ number
  · by_cases hle : number ≤ decThreshold s._digits
    · exact ⟨_, printDecInt_branch_digits s number hne h0 hle, by
        rw [setFirstDot_pins, decPosDigits_pins]⟩
    · exact ⟨_, printDecInt_branch_overflow s number hne h0 (by linarith), by
        rw [decPosOverflow_pins]⟩
  · by_cases hlt : number < wrapLong (-(Int.tdiv (decThreshold s._digits) 10))
    · exact ⟨_, printDecInt_branch_neg_overflow s number hne (by linarith) hlt, by
        rw [decNegOverflow_pins]⟩
    · exact ⟨_, printDecInt_branch_neg_digits s number hne (by linarith) (by linarith), by
        rw [setFirstDot_pins, decNegDigits_pins]⟩

/-- On a non-empty chain `printHexInt` returns and only rewrites the content and dot flag of
the digits. -/
theorem printHexInt_frame (s : SSDisplay) (number : Nat) (hne : s._first ≠ []) :
    ∃ l, printHexInt s number = some { s with _first := l } ∧
      l.map (fun d => d.pin) = s._first.map (fun d => d.pin) :=
  ⟨_, printHexInt_eq s number hne, hexDigits_pins _ _ _⟩

/-- Rewriting the content and dot flags of the digits keeps the run invariant. -/
theorem runInv_contents (segs : List Nat) (dm : SSDisplayMode_e) (st : Bool) (s : SSDisplay)
    (l : List SSDisplay_digit_s) (hl : l.map (fun d => d.pin) = s._first.map (fun d => d.pin))
    (hI : RunInv segs dm st s) : RunInv segs dm st { s with _first := l } := by
  obtain ⟨h1, h2, h3, h4, h5, h6, h7⟩ := hI
  refine ⟨h1, h2, ?_, ?_, ?_, ?_, ?_⟩
  · simpa only [hl] using h3
  · simpa only [hl] using h4
  · simpa only [hl] using h5
  · intro t ht
    rw [enabledCount_pins dm l s._first _ hl]
    exact h6 t ht
  · rcases h7 with ⟨ha, hb⟩ | ⟨ha, c, hc⟩
    · exact Or.inl ⟨ha, by simpa only [hl] using hb⟩
    · refine Or.inr ⟨ha, c, ?_⟩
      obtain ⟨c1, c2, c3, c4, c5, c6⟩ := hc
      exact ⟨by simp only [hl], c2, c3, c4, by simpa only [hl] using c5,
        by simpa only [hl] using c6⟩

/-- `addDigit` with a fresh common pin, apart from the segment pins, keeps the run
invariant. -/
theorem runInv_addDigit (segs : List Nat) (dm : SSDisplayMode_e) (st : Bool) (s : SSDisplay)
    (p : Nat) (hI : RunInv segs dm st s) (hfresh : p ∉ s._first.map (fun d => d.pin))
    (hapart : ∀ i, i < 8 → segs.getD i 0 ≠ p) : RunInv segs dm st (addDigit s p) := by
  obtain ⟨h1, h2, h3, h4, h5, h6, h7⟩ := hI
  have hpins : (addDigit s p)._first.map (fun d => d.pin) =
      s._first.map (fun d => d.pin) ++ [p] := by
    rw [addDigit_eq]
    simp
  have hlog : (addDigit s p).log =
      s.log ++ [PinOp.mode p, PinOp.write p (inactiveLevel dm)] := by
    rw [addDigit_eq, h2]
  have hfirst : (addDigit s p)._first =
      s._first ++ [{ content := 32, dot := false, pin := p }] := by
    rw [addDigit_eq]
  have hnext : (addDigit s p)._next = s._next := by
    rw [addDigit_eq]
  have hnowrite : ∀ l, PinOp.write p l ∉ s.log := by
    intro l hl
    rcases h5 p l hl with hp | ⟨i, hi, hp⟩
    · exact hfresh hp
    · exact hapart i hi hp.symm
  have hsplit : ∀ l, s.log ++ [PinOp.mode p, PinOp.write p l] =
      (s.log ++ [PinOp.mode p]) ++ [PinOp.write p l] := by simp
  -- levels after the two operations
  have hlev : ∀ q, pinLevel (s.log ++ [PinOp.mode p, PinOp.write p (inactiveLevel dm)]) q =
      if p = q then some (inactiveLevel dm) else pinLevel s.log q := by
    intro q
    rw [hsplit, pinLevel_append_write, pinLevel_append_mode]
  have hne := active_ne_inactive dm
  refine ⟨by rw [addDigit_eq]; exact h1, by rw [addDigit_eq]; exact h2, ?_, ?_, ?_, ?_, ?_⟩
  · rw [hpins]
    exact List.Nodup.append h3 (List.nodup_singleton p) (by simpa using hfresh)
  · intro i hi
    rw [hpins, List.mem_append, List.mem_singleton]
    rintro (h | h)
    · exact h4 i hi h
    · exact hapart i hi h
  · intro q l hq
    rw [hlog, List.mem_append] at hq
    rw [hpins, List.mem_append, List.mem_singleton]
    rcases hq with hq | hq
    · rcases h5 q l hq with h | h
      · exact Or.inl (Or.inl h)
      · exact Or.inr h
    · simp only [List.mem_cons, List.mem_singleton, List.not_mem_nil, or_false] at hq
      rcases hq with hq | hq
      · exact PinOp.noConfusion hq
      · injection hq with hq1 hq2
        exact Or.inl (Or.inr hq1)
  · rw [hlog, hfirst]
    have hcount : ∀ L : List PinOp, pinLevel L p ≠ some (activeLevel dm) →
        enabledCount dm (s._first ++ [{ content := 32, dot := false, pin := p }]) L =
          enabledCount dm s._first L := by
      intro L hL
      unfold enabledCount
      rw [List.countP_append]
      simp [hL]
    refine safe_append (fun L => enabledCount dm
      (s._first ++ [{ content := 32, dot := false, pin := p }]) L ≤ 1) _ _ ?_ ?_
    · intro t ht
      have hnone : pinLevel (s.log.take t) p = none :=
        pinLevel_none _ _ (fun l hl => hnowrite l (List.mem_of_mem_take hl))
      rw [hcount _ (by rw [hnone]; exact fun h => Option.noConfusion h)]
      exact h6 t ht
    · intro t ht
      have hbase := h6 s.log.length (le_refl _)
      rw [List.take_length] at hbase
      simp only [List.length_cons, List.length_singleton, List.length_nil] at ht
      have hsame : ∀ L, (∀ d ∈ s._first, pinLevel L d.pin = pinLevel s.log d.pin) →
          pinLevel L p ≠ some (activeLevel dm) →
          enabledCount dm (s._first ++ [{ content := 32, dot := false, pin := p }]) L ≤ 1 := by
        intro L hL hp
        rw [hcount L hp, enabledCount_levels dm s._first L s.log hL]
        exact hbase
      have hpn : pinLevel s.log p = none := pinLevel_none _ _ hnowrite
      interval_cases t
      · apply hsame
        · intro d _
          simp
        · simp only [List.take_zero, List.append_nil, hpn]
          exact fun h => Option.noConfusion h
      · apply hsame
        · intro d _
          simp only [List.take_succ_cons, List.take_zero]
          rw [pinLevel_append_mode]
        · simp only [List.take_succ_cons, List.take_zero]
          rw [pinLevel_append_mode, hpn]
          exact fun h => Option.noConfusion h
      · apply hsame
        · intro d hd
          simp only [List.take_succ_cons, List.take_zero]
          rw [hlev, if_neg]
          intro he
          apply hfresh
          rw [he]
          exact List.mem_map_of_mem _ hd
        · simp only [List.take_succ_cons, List.take_zero]
          rw [hlev, if_pos rfl]
          intro h
          injection h with h
          exact hne h.symm
  · rcases h7 with ⟨ha, hb⟩ | ⟨ha, c, hc⟩
    · refine Or.inl ⟨by rw [hnext]; exact ha, ?_⟩
      intro q hq
      rw [hlog, hlev]
      split
      · rfl
      · rw [hpins, List.mem_append, List.mem_singleton] at hq
        rcases hq with hq | hq
        · exact hb q hq
        · exact absurd hq.symm (by assumption)
    · refine Or.inr ⟨ha, c, ?_⟩
      obtain ⟨c1, c2, c3, c4, c5, c6⟩ := hc
      refine ⟨rfl, by rw [addDigit_eq]; exact h1, by rw [addDigit_eq]; exact h2,
        by rw [hnext]; exact c4, ?_, ?_⟩
      · rw [hpins]
        simp only [List.length_append, List.length_singleton]
        omega
      · intro i hi hic
        rw [hlog, hlev]
        split
        · rfl
        · rename_i hpq
          rw [hpins] at hi hpq ⊢
          simp only [List.length_append, List.length_singleton] at hi
          by_cases hlt : i < (s._first.map (fun d => d.pin)).length
          · have hg : (s._first.map (fun d => d.pin) ++ [p]).getD i 0 =
                (s._first.map (fun d => d.pin)).getD i 0 := by
              simp [List.getD, List.getElem?_append_left hlt]
            rw [hg]
            exact c6 i hlt hic
          · exfalso
            apply hpq
            have hi2 : i = (s._first.map (fun d => d.pin)).length := by omega
            rw [hi2]
            simp [List.getD]

/-- `refreshNext` keeps the run invariant and records that the cursor has stepped. -/
theorem runInv_refreshNext (segs : List Nat) (dm : SSDisplayMode_e) (st : Bool)
    (s : SSDisplay) (hI : RunInv segs dm st s) :
    ∃ s', refreshNext s = some s' ∧ RunInv segs dm true s' ∧ s'._first = s._first := by
  by_cases hempty : s._first = []
  · have hr : refreshNext s = some s := by
      unfold refreshNext
      rw [hempty]
    refine ⟨s, hr, ?_, rfl⟩
    obtain ⟨h1, h2, h3, h4, h5, h6, h7⟩ := hI
    refine ⟨h1, h2, h3, h4, h5, h6, ?_⟩
    rcases h7 with h | ⟨_, c, hc⟩
    · exact Or.inl h
    · exact Or.inr ⟨rfl, c, hc⟩
  · obtain ⟨h1, h2, h3, h4, h5, h6, h7⟩ := hI
    have hpos : 0 < (s._first.map (fun d => d.pin)).length := by
      rw [List.length_map]
      exact List.length_pos.mpr hempty
    obtain ⟨c, hC⟩ : ∃ c, CursorInv segs (s._first.map (fun d => d.pin)) dm s c := by
      rcases h7 with ⟨ha, hb⟩ | ⟨_, c, hc⟩
      · refine ⟨0, rfl, h1, h2, Or.inr ⟨ha, rfl⟩, hpos, ?_⟩
        intro i hi _
        apply hb
        rw [List.getD_eq_getElem _ _ hi]
        exact List.getElem_mem _
      · exact ⟨c, hc⟩
    obtain ⟨s', ops, hr, hlog, hfirst, hC', -, hpre⟩ :=
      refreshNext_step segs _ dm s c hC h3 h4
    have hcl : c < s._first.length := by simpa using hC.bound
    have hnl := nextIdx_lt s._first.length c (by omega)
    obtain ⟨s2, w1, w2, hr2, -, -, -, -, hlog2, hw1, hw2⟩ :=
      refreshNext_shape s c s._first[c] s._first[nextIdx s._first.length c] hC.cursor
        (List.getElem?_eq_getElem hcl) (List.getElem?_eq_getElem hnl)
    rw [hr] at hr2
    injection hr2 with hr2
    subst hr2
    refine ⟨s', hr, ⟨hC'.segPins, hC'.mode, by rw [hfirst]; exact h3,
      by rw [hfirst]; exact h4, ?_, ?_, ?_⟩, hfirst⟩
    · intro q l hq
      rw [hfirst]
      rw [hlog2] at hq
      simp only [List.mem_append, List.mem_singleton] at hq
      rcases hq with (((hq | hq) | hq) | hq) | hq
      · rcases h5 q l hq with h | h
        · exact Or.inl h
        · exact Or.inr h
      · obtain ⟨i, l2, hi, he⟩ := hw1 _ hq
        injection he with e1 e2
        exact Or.inr ⟨i, hi, by rw [e1, h1]⟩
      · injection hq with e1 e2
        rw [e1]
        exact Or.inl (List.mem_map.mpr ⟨s._first[c], List.getElem_mem hcl, rfl⟩)
      · injection hq with e1 e2
        rw [e1]
        exact Or.inl (List.mem_map.mpr
          ⟨s._first[nextIdx s._first.length c], List.getElem_mem hnl, rfl⟩)
      · obtain ⟨i, l2, hi, he⟩ := hw2 _ hq
        injection he with e1 e2
        exact Or.inr ⟨i, hi, by rw [e1, h1]⟩
    · rw [hlog, hfirst]
      exact safe_append (fun L => enabledCount dm s._first L ≤ 1) _ _ h6 hpre
    · rw [hfirst]
      exact Or.inr ⟨rfl, _, hC'⟩

/-- The operations of `segWrites` are writes to segment pins. -/
theorem segWrites_seg (s : SSDisplay) (levels : List Level) :
    ∀ op ∈ segWrites s levels, ∃ i l, i < 8 ∧ op = PinOp.write (s._seg_pins.getD i 0) l := by
  intro op hop
  unfold segWrites at hop
  rw [List.mem_map] at hop
  obtain ⟨i, hi, rfl⟩ := hop
  exact ⟨i, _, List.mem_range.mp hi, rfl⟩

/-- The sweep of one digit from a state in which every common line is inactive: at most one
common line is enabled after every write, and every common line is inactive at the end. -/
theorem sweep_one (dm : SSDisplayMode_e) (s : SSDisplay) (hmode : s._digitMode = dm)
    (chain : List SSDisplay_digit_s) (pins : List Nat)
    (hchain : chain.map (fun d => d.pin) = pins) (hnd : pins.Nodup)
    (hseg : ∀ i, i < 8 → s._seg_pins.getD i 0 ∉ pins) (d : SSDisplay_digit_s)
    (log : List PinOp)
    (hall : ∀ p ∈ pins, pinLevel log p = some (inactiveLevel dm)) :
    (∀ t, t ≤ (sweepWrites s d).length →
      enabledCount dm chain (log ++ (sweepWrites s d).take t) ≤ 1) ∧
    (∀ p ∈ pins, pinLevel (log ++ sweepWrites s d) p = some (inactiveLevel dm)) := by
  have hW : ∀ op ∈ segWrites s (encoding s d.content d.dot) ++ segWrites s (blankPattern s),
      ∃ i l, i < 8 ∧ op = PinOp.write (s._seg_pins.getD i 0) l := by
    intro op hop
    rw [List.mem_append] at hop
    rcases hop with h | h
    · exact segWrites_seg s _ op h
    · exact segWrites_seg s _ op h
  have hshape : sweepWrites s d = [PinOp.write d.pin (activeLevel dm)] ++
      (segWrites s (encoding s d.content d.dot) ++ segWrites s (blankPattern s)) ++
      [PinOp.write d.pin (inactiveLevel dm)] := by
    unfold sweepWrites
    rw [hmode]
    simp only [List.append_assoc]
  generalize segWrites s (encoding s d.content d.dot) ++ segWrites s (blankPattern s) = W
    at hW hshape
  rw [hshape]
  -- levels after the enabling write
  have hq1 : ∀ p ∈ pins, p ≠ d.pin →
      pinLevel (log ++ [PinOp.write d.pin (activeLevel dm)]) p = some (inactiveLevel dm) := by
    intro p hp hne
    rw [pinLevel_append_write, if_neg (Ne.symm hne)]
    exact hall p hp
  have hq2 : ∀ p ∈ pins, p ≠ d.pin →
      pinLevel (log ++ [PinOp.write d.pin (activeLevel dm)] ++ W) p =
        some (inactiveLevel dm) := by
    intro p hp hne
    rw [pinLevel_seg pins s._seg_pins hseg _ W hW p hp]
    exact hq1 p hp hne
  have hq3 : ∀ p ∈ pins,
      pinLevel (log ++ [PinOp.write d.pin (activeLevel dm)] ++ W ++
        [PinOp.write d.pin (inactiveLevel dm)]) p = some (inactiveLevel dm) := by
    intro p hp
    rw [pinLevel_append_write]
    split
    · rfl
    · rename_i hne
      exact hq2 p hp (Ne.symm hne)
  obtain ⟨c0, hc0⟩ := quiet_position pins hnd dm log d.pin (fun p hp _ => hall p hp)
  obtain ⟨c1, hc1⟩ := quiet_position pins hnd dm _ d.pin hq1
  obtain ⟨c2, hc2⟩ := quiet_position pins hnd dm _ d.pin hq2
  obtain ⟨c3, hc3⟩ := quiet_position pins hnd dm _ d.pin (fun p hp _ => hq3 p hp)
  refine ⟨?_, ?_⟩
  · refine prefixes_append (fun l => enabledCount dm chain l ≤ 1) _ _ _ ?_ ?_
    · refine prefixes_append (fun l => enabledCount dm chain l ≤ 1) _ _ _ ?_ ?_
      · refine prefixes_single (fun l => enabledCount dm chain l ≤ 1) _ _ ?_ ?_
        · exact enabledCount_le_one dm chain pins _ c0 hchain hc0
        · exact enabledCount_le_one dm chain pins _ c1 hchain hc1
      · exact prefixes_seg dm chain pins s._seg_pins hchain hseg _ W c1 hW hc1
    · rw [← List.append_assoc]
      refine prefixes_single (fun l => enabledCount dm chain l ≤ 1) _ _ ?_ ?_
      · exact enabledCount_le_one dm chain pins _ c2 hchain hc2
      · exact enabledCount_le_one dm chain pins _ c3 hchain hc3
  · intro p hp
    rw [← List.append_assoc, ← List.append_assoc]
    exact hq3 p hp

/-- The sweep of a list of digits of the chain from a state in which every common line is
inactive. -/
theorem sweep_all (dm : SSDisplayMode_e) (s : SSDisplay) (hmode : s._digitMode = dm)
    (chain : List SSDisplay_digit_s) (pins : List Nat)
    (hchain : chain.map (fun d => d.pin) = pins) (hnd : pins.Nodup)
    (hseg : ∀ i, i < 8 → s._seg_pins.getD i 0 ∉ pins) (l : List SSDisplay_digit_s) :
    ∀ log : List PinOp, (∀ p ∈ pins, pinLevel log p = some (inactiveLevel dm)) →
      (∀ t, t ≤ (l.flatMap (sweepWrites s)).length →
        enabledCount dm chain (log ++ (l.flatMap (sweepWrites s)).take t) ≤ 1) ∧
      (∀ p ∈ pins, pinLevel (log ++ l.flatMap (sweepWrites s)) p =
        some (inactiveLevel dm)) := by
  induction l with
  | nil =>
    intro log hall
    refine ⟨?_, by simpa using hall⟩
    intro t _
    obtain ⟨c0, hc0⟩ := quiet_position pins hnd dm log 0 (fun p hp _ => hall p hp)
    simpa using enabledCount_le_one dm chain pins _ c0 hchain hc0
  | cons d rest ih =>
    intro log hall
    obtain ⟨h1, h2⟩ := sweep_one dm s hmode chain pins hchain hnd hseg d log hall
    obtain ⟨h3, h4⟩ := ih (log ++ sweepWrites s d) h2
    rw [List.flatMap_cons]
    refine ⟨prefixes_append (fun l => enabledCount dm chain l ≤ 1) _ _ _ h1 h3, ?_⟩
    intro p hp
    rw [← List.append_assoc]
    exact h4 p hp

/-- `refreshAll` keeps the run invariant when `refreshNext` has not been called before. -/
theorem runInv_refreshAll (segs : List Nat) (dm : SSDisplayMode_e) (s : SSDisplay)
    (hI : RunInv segs dm false s) :
    RunInv segs dm false (refreshAll s) ∧ (refreshAll s)._first = s._first := by
  by_cases hempty : s._first = []
  · have hr : refreshAll s = s := by
      unfold refreshAll
      rw [hempty]
    rw [hr]
    exact ⟨hI, rfl⟩
  · obtain ⟨h1, h2, h3, h4, h5, h6, h7⟩ := hI
    have hall : refreshAll s = refreshAllLoop s s._first := by
      unfold refreshAll
      cases hf : s._first with
      | nil => exact absurd hf hempty
      | cons d rest => rfl
    obtain ⟨hnone, hq⟩ : s._next = none ∧
        ∀ p ∈ s._first.map (fun d => d.pin), pinLevel s.log p = some (inactiveLevel dm) := by
      rcases h7 with h | ⟨h, _⟩
      · exact h
      · exact Bool.noConfusion h
    obtain ⟨g1, g2, g3, -, g5, -, -, g8, -⟩ :=
      refreshAllLoop_trace s s._first s rfl rfl rfl rfl
    have hseg : ∀ i, i < 8 → s._seg_pins.getD i 0 ∉ s._first.map (fun d => d.pin) := by
      rw [h1]
      exact h4
    obtain ⟨k1, k2⟩ := sweep_all dm s h2 s._first _ rfl h3 hseg s._first s.log hq
    rw [hall]
    refine ⟨⟨by rw [g5]; exact h1, by rw [g8]; exact h2, by rw [g2]; exact h3,
      by rw [g2]; exact h4, ?_, ?_, ?_⟩, g2⟩
    · intro q l hql
      rw [g2]
      rw [g1, List.mem_append] at hql
      rcases hql with hql | hql
      · exact h5 q l hql
      · rw [List.mem_flatMap] at hql
        obtain ⟨d, hd, hop⟩ := hql
        unfold sweepWrites at hop
        simp only [List.mem_append, List.mem_singleton] at hop
        rcases hop with ((hop | hop) | hop) | hop
        · injection hop with e1 e2
          rw [e1]
          exact Or.inl (List.mem_map.mpr ⟨d, hd, rfl⟩)
        · obtain ⟨i, l2, hi, he⟩ := segWrites_seg s _ _ hop
          injection he with e1 e2
          exact Or.inr ⟨i, hi, by rw [e1, h1]⟩
        · obtain ⟨i, l2, hi, he⟩ := segWrites_seg s _ _ hop
          injection he with e1 e2
          exact Or.inr ⟨i, hi, by rw [e1, h1]⟩
        · injection hop with e1 e2
          rw [e1]
          exact Or.inl (List.mem_map.mpr ⟨d, hd, rfl⟩)
    · rw [g1, g2]
      exact safe_append (fun L => enabledCount dm s._first L ≤ 1) _ _ h6 k1
    · rw [g2, g3, g1]
      exact Or.inl ⟨hnone, k2⟩

/-- A newly constructed display satisfies the run invariant. -/
theorem runInv_new (a b c d e f g h : Nat) (sm dm : SSDisplayMode_e) :
    RunInv [a, b, c, d, e, f, g, h] dm false (SSDisplay.new a b c d e f g h sm dm) := by
  refine ⟨rfl, rfl, by simp [SSDisplay.new], by simp [SSDisplay.new], ?_, ?_, ?_⟩
  · intro p l hp
    exfalso
    simp [SSDisplay.new] at hp
  · intro t _
    simp [SSDisplay.new, enabledCount]
  · exact Or.inl ⟨rfl, by simp [SSDisplay.new]⟩

/-- A disciplined call sequence with fresh common pins, apart from the segment pins, runs
without fault and keeps the run invariant. -/
theorem run_runInv (segs : List Nat) (dm : SSDisplayMode_e) (calls : List Call) :
    ∀ (s : SSDisplay) (st : Bool), RunInv segs dm st s →
      (s._first.map (fun d => d.pin) ++ addedPins calls).Nodup →
      (∀ p ∈ addedPins calls, ∀ i, i < 8 → segs.getD i 0 ≠ p) →
      disciplined s._first.length st calls = true →
      ∃ s' st', run s calls = some s' ∧ RunInv segs dm st' s' ∧
        s'._first.map (fun d => d.pin) = s._first.map (fun d => d.pin) ++ addedPins calls := by
  induction calls with
  | nil =>
    intro s st hI _ _ _
    exact ⟨s, st, rfl, hI, by simp [addedPins]⟩
  | cons cl rest ih =>
    intro s st hI hnd hseg hdisc
    cases cl with
    | addDigit p =>
      simp only [addedPins] at hnd hseg ⊢
      simp only [disciplined] at hdisc
      have hfresh : p ∉ s._first.map (fun d => d.pin) := by
        intro hp
        have := (List.nodup_append.mp hnd).2.2
        exact this hp (List.mem_cons_self _ _)
      have hI2 := runInv_addDigit segs dm st s p hI hfresh
        (fun i hi => hseg p (List.mem_cons_self _ _) i hi)
      have hpins : (addDigit s p)._first.map (fun d => d.pin) =
          s._first.map (fun d => d.pin) ++ [p] := by
        rw [addDigit_eq]
        simp
      have hlen : (addDigit s p)._first.length = s._first.length + 1 := by
        rw [addDigit_eq]
        simp
      obtain ⟨s', st', hr, hI', hp'⟩ := ih (addDigit s p) st hI2
        (by rw [hpins]; simpa using hnd)
        (fun q hq => hseg q (List.mem_cons_of_mem _ hq))
        (by rw [hlen]; exact hdisc)
      refine ⟨s', st', ?_, hI', ?_⟩
      · simp only [run, call, Option.some_bind]
        exact hr
      · rw [hp', hpins]
        simp
    | refreshAll =>
      simp only [addedPins] at hnd hseg ⊢
      simp only [disciplined, Bool.and_eq_true, Bool.not_eq_true'] at hdisc
      obtain ⟨hst, hdisc⟩ := hdisc
      subst hst
      obtain ⟨hI2, hfirst⟩ := runInv_refreshAll segs dm s hI
      obtain ⟨s', st', hr, hI', hp'⟩ := ih (refreshAll s) false hI2
        (by rw [hfirst]; exact hnd) hseg (by rw [hfirst]; exact hdisc)
      refine ⟨s', st', ?_, hI', by rw [hp', hfirst]⟩
      simp only [run, call, Option.some_bind]
      exact hr
    | refreshNext =>
      simp only [addedPins] at hnd hseg ⊢
      simp only [disciplined] at hdisc
      obtain ⟨s1, hr1, hI2, hfirst⟩ := runInv_refreshNext segs dm st s hI
      obtain ⟨s', st', hr, hI', hp'⟩ := ih s1 true hI2
        (by rw [hfirst]; exact hnd) hseg (by rw [hfirst]; exact hdisc)
      refine ⟨s', st', ?_, hI', by rw [hp', hfirst]⟩
      simp only [run, call, hr1, Option.some_bind]
      exact hr
    | printDecInt number =>
      simp only [addedPins] at hnd hseg ⊢
      simp only [disciplined, Bool.and_eq_true, decide_eq_true_eq] at hdisc
      obtain ⟨hpos, hdisc⟩ := hdisc
      obtain ⟨l, hr1, hl⟩ := printDecInt_frame s number (List.length_pos.mp hpos)
      have hI2 := runInv_contents segs dm st s l hl hI
      have hlen : l.length = s._first.length := by
        have := congrArg List.length hl
        simpa using this
      obtain ⟨s', st', hr, hI', hp'⟩ := ih { s with _first := l } st hI2
        (by simpa only [hl] using hnd) hseg (by simpa only [hlen] using hdisc)
      refine ⟨s', st', ?_, hI', by rw [hp']; simp only [hl]⟩
      simp only [run, call, hr1, Option.some_bind]
      exact hr
    | printHexInt number =>
      simp only [addedPins] at hnd hseg ⊢
      simp only [disciplined, Bool.and_eq_true, decide_eq_true_eq] at hdisc
      obtain ⟨hpos, hdisc⟩ := hdisc
      obtain ⟨l, hr1, hl⟩ := printHexInt_frame s number (List.length_pos.mp hpos)
      have hI2 := runInv_contents segs dm st s l hl hI
      have hlen : l.length = s._first.length := by
        have := congrArg List.length hl
        simpa using this
      obtain ⟨s', st', hr, hI', hp'⟩ := ih { s with _first := l } st hI2
        (by simpa only [hl] using hnd) hseg (by simpa only [hlen] using hdisc)
      refine ⟨s', st', ?_, hI', by rw [hp']; simp only [hl]⟩
      simp only [run, call, hr1, Option.some_bind]
      exact hr

/-- C11 as stated fails.  With distinct common pins 10 and 11, `refreshNext` leaves the
second digit enabled and the first write of a following `refreshAll` enables the first digit
as well: two common lines are active after that write.  And when a common pin is also a
segment pin (pin 2), rendering `'8'` drives that common line to the active level while the
selected digit is enabled. -/
theorem run_two_enabled_counterexample :
    (addedPins [Call.addDigit 10, Call.addDigit 11, Call.refreshNext, Call.refreshAll]).Nodup ∧
    (run (SSDisplay.new 2 3 4 5 6 7 8 9 SSDisplayMode_e.NEGATIVE SSDisplayMode_e.NEGATIVE)
      [Call.addDigit 10, Call.addDigit 11, Call.refreshNext, Call.refreshAll]).map
      (fun s => (s.log.take 31).drop 30) = some [PinOp.write 10 Level.LOW] ∧
    (run (SSDisplay.new 2 3 4 5 6 7 8 9 SSDisplayMode_e.NEGATIVE SSDisplayMode_e.NEGATIVE)
      [Call.addDigit 10, Call.addDigit 11, Call.refreshNext, Call.refreshAll]).map
      (fun s => enabledCount SSDisplayMode_e.NEGATIVE s._first (s.log.take 31)) = some 2 ∧
    (addedPins [Call.addDigit 2, Call.addDigit 10, Call.printDecInt 80,
      Call.refreshNext]).Nodup ∧
    (run (SSDisplay.new 2 3 4 5 6 7 8 9 SSDisplayMode_e.NEGATIVE SSDisplayMode_e.NEGATIVE)
      [Call.addDigit 2, Call.addDigit 10, Call.printDecInt 80, Call.refreshNext]).map
      (fun s => enabledCount SSDisplayMode_e.NEGATIVE s._first (s.log.take 23)) = some 2 := by
  refine ⟨by decide, by decide, by decide, by decide, by decide⟩

/-- C11 (amended): for common pins that are pairwise distinct and distinct from the segment
pins, starting from a newly constructed display, every sequence of `addDigit`, `refreshAll`,
`refreshNext`, `printDecInt` and `printHexInt` calls in which the print calls find a
non-empty chain and `refreshAll` is not called once `refreshNext` has been called runs
without fault, and after every individual pin operation of the sequence at most one digit's
common line is at the active level of the digit polarity. -/
theorem run_at_most_one (a b c d e f g h : Nat) (sm dm : SSDisplayMode_e) (calls : List Call)
    (hnd : (addedPins calls).Nodup)
    (hseg : ∀ p ∈ addedPins calls, p ∉ [a, b, c, d, e, f, g, h])
    (hdisc : disciplined 0 false calls = true) :
    ∃ s', run (SSDisplay.new a b c d e f g h sm dm) calls = some s' ∧
      s'._first.map (fun d => d.pin) = addedPins calls ∧
      ∀ t, t ≤ s'.log.length → enabledCount dm s'._first (s'.log.take t) ≤ 1 := by
  have hapart : ∀ p ∈ addedPins calls, ∀ i, i < 8 → [a, b, c, d, e, f, g, h].getD i 0 ≠ p := by
    intro p hp i hi he
    apply hseg p hp
    rw [← he]
    interval_cases i <;> simp
  obtain ⟨s', st', hr, hI, hp⟩ := run_runInv [a, b, c, d, e, f, g, h] dm calls
    (SSDisplay.new a b c d e f g h sm dm) false (runInv_new a b c d e f g h sm dm)
    (by simpa [SSDisplay.new] using hnd) hapart hdisc
  refine ⟨s', hr, ?_, hI.safe⟩
  rw [hp]
  simp [SSDisplay.new]

/-- Instance of amended C11: two digits, a print, a full sweep, single steps, a third digit
added between two single steps. -/
theorem run_at_most_one_witness :
    ∃ s', run (SSDisplay.new 2 3 4 5 6 7 8 9 SSDisplayMode_e.NEGATIVE SSDisplayMode_e.NEGATIVE)
        [Call.addDigit 10, Call.addDigit 11, Call.printDecInt 42, Call.refreshAll,
          Call.refreshNext, Call.addDigit 12, Call.printHexInt 171, Call.refreshNext]
        = some s' ∧
      s'._first.map (fun d => d.pin) =
        addedPins [Call.addDigit 10, Call.addDigit 11, Call.printDecInt 42, Call.refreshAll,
          Call.refreshNext, Call.addDigit 12, Call.printHexInt 171, Call.refreshNext] ∧
      ∀ t, t ≤ s'.log.length →
        enabledCount SSDisplayMode_e.NEGATIVE s'._first (s'.log.take t) ≤ 1 :=
  run_at_most_one 2 3 4 5 6 7 8 9 SSDisplayMode_e.NEGATIVE SSDisplayMode_e.NEGATIVE
    [Call.addDigit 10, Call.addDigit 11, Call.printDecInt 42, Call.refreshAll,
      Call.refreshNext, Call.addDigit 12, Call.printHexInt 171, Call.refreshNext]
    (by decide) (by decide) (by decide)

end SSD
